import Mathlib

/-!
Code-Vision-AI: archive inspection and scripted playback.

A shallow embedding of the analysis functions of `src/App.js`
(`buildFileTree`, `detectTechStack`, `analyzeComponents`, `analyzeProject`, ...)
and of the playback logic of `src/components/VideoPlayer.jsx`
(`chapters`, `seekTo`, `togglePlay`, ...), followed by theorems about them.

JavaScript strings are modelled as lists of characters (`Str`), JavaScript
objects used as mappings are modelled as association lists that keep the
iteration order of their own keys, and a thrown exception is `Except.error`.
-/

namespace CodeVision

/-! ## Strings -/

/-- A JavaScript string, as the list of its characters. -/
abbrev Str := List Char

/-- Exceptions the embedded code can throw. -/
inductive JsError where
  | typeError
  | syntaxError
  deriving DecidableEq, Repr

/-- Worker of `splitSlash`: `cur` is the segment read so far, reversed. -/
def splitAux : List Char → List Char → List Str
  | [], cur => [cur.reverse]
  | c :: cs, cur => if c = '/' then cur.reverse :: splitAux cs [] else splitAux cs (c :: cur)

/-- The call `s.split('/')`. -/
def splitSlash (s : Str) : List Str := splitAux s []

/-- The call `path.split('/').filter(p => p)`: the non-empty segments of a path. -/
def pathParts (path : Str) : List Str := (splitSlash path).filter (fun p => p ≠ [])

/-- The call `s.includes(pat)`: `pat` occurs in `s` as a contiguous substring. -/
def includes (s pat : Str) : Bool := s.tails.any (fun t => pat.isPrefixOf t)

/-- The call `s.endsWith(suffix)`. -/
def endsWith (s suffix : Str) : Bool := suffix.reverse.isPrefixOf s.reverse

/-- The call `xs.join(sep)` on an array of strings. -/
def joinWith (sep : Str) : List Str → Str
  | [] => []
  | [x] => x
  | x :: y :: rest => x ++ sep ++ joinWith sep (y :: rest)

/-- The call `path.split('/').pop()`: the last segment of the unfiltered split. -/
def lastSegment (path : Str) : Str := (splitSlash path).getLast?.getD []

/-! ## The archive mapping and the file tree -/

/-- An entry of the archive: its directory flag and the text its `async('text')` yields. -/
structure ZipEntry where
  dir : Bool
  text : Str
  deriving DecidableEq, Repr

/-- The object `contents.files`: own keys with their entries, in iteration order.
Keys of an object are distinct, so `files[path]` for an iterated key `path` is the
entry paired with it. -/
abbrev Files := List (Str × ZipEntry)

inductive NodeType where
  | folder
  | file
  deriving DecidableEq, Repr

/-- A node object of the tree. The root literal has neither `path` nor `important`.
Node objects are shared between `lookup` and the `children` arrays; a reference to a
node is modelled by the key under which `lookup` holds it, so `children` lists keys.
`children = none` is `undefined`. -/
structure FileNode where
  name : Str
  type : NodeType
  path : Option Str
  important : Option Bool
  children : Option (List Str)
  deriving DecidableEq, Repr

/-- The own properties of the `lookup` object, in insertion order; it is also the
store of all node objects, the root being the one under the key `''`. -/
abbrev Lookup := List (Str × FileNode)

/-- The list `important` of `isImportantFile`. -/
def importantNames : List Str :=
  ["package.json".toList, "README.md".toList, "index.js".toList, "index.jsx".toList,
   "App.js".toList, "App.jsx".toList, "main.js".toList, "main.jsx".toList,
   ".env".toList, "config.js".toList, "vite.config.js".toList, "webpack.config.js".toList]

def isImportantFile (filename : Str) : Bool := importantNames.contains filename

/-- Property names every object literal inherits from `Object.prototype`; each of
them is a function or an object, hence truthy, and none has a `children` property. -/
def objectPrototypeKeys : List Str :=
  ["constructor".toList, "__defineGetter__".toList, "__defineSetter__".toList,
   "hasOwnProperty".toList, "__lookupGetter__".toList, "__lookupSetter__".toList,
   "isPrototypeOf".toList, "propertyIsEnumerable".toList, "toString".toList,
   "valueOf".toList, "__proto__".toList, "toLocaleString".toList]

/-- Own-property read `lookup[key]`. -/
def Lookup.own (lookup : Lookup) (key : Str) : Option FileNode := List.lookup key lookup

/-- Truthiness of `lookup[key]`: an own node, or a property inherited from
`Object.prototype` (`lookup` is the object literal `{ '': root }`). -/
def Lookup.truthy (lookup : Lookup) (key : Str) : Bool :=
  (lookup.own key).isSome || objectPrototypeKeys.contains key

/-- Replace the node stored under `key`. -/
def Lookup.set (key : Str) (node : FileNode) : Lookup → Lookup
  | [] => []
  | (k, n) :: rest => if k = key then (k, node) :: rest else (k, n) :: Lookup.set key node rest

/-- The statement `lookup[parentPath].children.push(node)`, `node` being the one
stored under `child`. Throws when `lookup[parentPath]` has no `children` array: a
file node, or a value inherited from `Object.prototype`. -/
def pushChild (lookup : Lookup) (parentPath child : Str) : Except JsError Lookup :=
  match lookup.own parentPath with
  | some parent =>
    match parent.children with
    | some cs => .ok (Lookup.set parentPath { parent with children := some (cs ++ [child]) } lookup)
    | none => .error .typeError
  | none => .error .typeError

/-- The body of `parts.forEach((part, i) => ...)` run over the remaining parts, with
the index `i`, the variable `current` and the store threaded through; `dir` is
`files[path].dir` and `len` is `parts.length`. -/
def walkParts (dir : Bool) (len : Nat) : List Str → Nat → Str → Lookup → Except JsError Lookup
  | [], _, _, lookup => .ok lookup
  | part :: rest, i, current, lookup =>
    let parentPath := current
    let current := if current ≠ [] then current ++ '/' :: part else part
    if !lookup.truthy current then
      let isFolder := dir || decide (i < len - 1)
      let node : FileNode :=
        { name := part
          type := if isFolder then .folder else .file
          path := some current
          important := some (isImportantFile part)
          children := if isFolder then some [] else none }
      match pushChild (lookup ++ [(current, node)]) parentPath current with
      | .ok lookup => walkParts dir len rest (i + 1) current lookup
      | .error e => .error e
    else walkParts dir len rest (i + 1) current lookup

/-- The root literal `{ name: 'root', type: 'folder', children: [] }`. -/
def rootNode : FileNode :=
  { name := "root".toList, type := .folder, path := none, important := none, children := some [] }

/-- The outer `Object.keys(files).forEach(path => ...)`. -/
def buildLoop : Files → Lookup → Except JsError Lookup
  | [], lookup => .ok lookup
  | (path, entry) :: rest, lookup =>
    let parts := pathParts path
    match walkParts entry.dir parts.length parts 0 [] lookup with
    | .ok lookup => buildLoop rest lookup
    | .error e => .error e

/-- The function `buildFileTree`. The result is the store of node objects; the
returned `root` is the node under the key `''`, and its tree is what `children`
references reach from there. -/
def buildFileTree (files : Files) : Except JsError Lookup :=
  buildLoop files [("".toList, rootNode)]

/-! ## Parsed JSON and the tech stack -/

/-- A JavaScript value as `JSON.parse` can produce it, together with `undefined` for
absent properties. Of a number the code observes only whether it is zero. -/
inductive JsVal where
  | undefined
  | null
  | bool (b : Bool)
  | num (q : ℚ)
  | str (s : Str)
  | arr (items : List JsVal)
  | obj (props : List (Str × JsVal))

/-- Truthiness of a value in a condition. -/
def JsVal.truthy : JsVal → Bool
  | .undefined => false
  | .null => false
  | .bool b => b
  | .num q => decide (q ≠ 0)
  | .str s => decide (s ≠ [])
  | .arr _ => true
  | .obj _ => true

/-- The read `v[key]` on a value that is neither `null` nor `undefined`, for the keys
this program reads (`dependencies`, `scripts`, `react`, ...): none of them names an
inherited property, an index or `length`, so the read yields the own property of an
object and `undefined` on every other value. -/
def JsVal.get (v : JsVal) (key : Str) : JsVal :=
  match v with
  | .obj props => (List.lookup key props).getD .undefined
  | _ => .undefined

/-- The member access `v.key`, which throws on `null` and `undefined`. -/
def JsVal.member (v : JsVal) (key : Str) : Except JsError JsVal :=
  match v with
  | .undefined => .error .typeError
  | .null => .error .typeError
  | _ => .ok (v.get key)

/-- The assignment `o[key] = val` on a mapping: overwrite in place, else append. -/
def setProp (key : Str) (val : JsVal) : List (Str × JsVal) → List (Str × JsVal)
  | [] => [(key, val)]
  | (k, v) :: rest => if k = key then (k, val) :: rest else (k, v) :: setProp key val rest

/-- Decimal index keys `"0"`, `"1"`, ... paired with the items of an array or string. -/
def indexProps (items : List JsVal) : List (Str × JsVal) :=
  (List.range items.length).zipWith (fun i v => ((Nat.repr i).toList, v)) items

/-- The own enumerable properties a spread `...v` copies. -/
def ownProps : JsVal → List (Str × JsVal)
  | .obj props => props
  | .arr items => indexProps items
  | .str s => indexProps (s.map (fun c => JsVal.str [c]))
  | _ => []

/-- One spread element `...v` into the object under construction. -/
def spreadInto (target : List (Str × JsVal)) (v : JsVal) : List (Str × JsVal) :=
  (ownProps v).foldl (fun acc kv => setProp kv.1 kv.2 acc) target

/-- The call `stack.add(label)` on a `Set`, kept in insertion order. -/
def setAdd (stack : List Str) (label : Str) : List Str :=
  if stack.contains label then stack else stack ++ [label]

/-- The function `detectTechStack`. -/
def detectTechStack (packageJson : JsVal) : Except JsError (List Str) :=
  match packageJson.member "dependencies".toList with
  | .error e => .error e
  | .ok dependencies =>
    match packageJson.member "devDependencies".toList with
    | .error e => .error e
    | .ok devDependencies =>
      let deps : JsVal := .obj (spreadInto (spreadInto [] dependencies) devDependencies)
      let stack : List Str := []
      let stack := if (deps.get "react".toList).truthy then setAdd stack "React".toList else stack
      let stack := if (deps.get "react-dom".toList).truthy then setAdd stack "React DOM".toList else stack
      let stack := if (deps.get "next".toList).truthy then setAdd stack "Next.js".toList else stack
      let stack := if (deps.get "vue".toList).truthy then setAdd stack "Vue.js".toList else stack
      let stack := if (deps.get "angular".toList).truthy then setAdd stack "Angular".toList else stack
      let stack := if (deps.get "express".toList).truthy then setAdd stack "Express.js".toList else stack
      let stack := if (deps.get "mongodb".toList).truthy || (deps.get "mongoose".toList).truthy
        then setAdd stack "MongoDB".toList else stack
      let stack := if (deps.get "framer-motion".toList).truthy
        then setAdd stack "Framer Motion".toList else stack
      let stack := if (deps.get "tailwindcss".toList).truthy
        then setAdd stack "Tailwind CSS".toList else stack
      let stack := if (deps.get "typescript".toList).truthy then setAdd stack "TypeScript".toList else stack
      let stack := if (deps.get "axios".toList).truthy then setAdd stack "Axios".toList else stack
      let stack := if (deps.get "react-router-dom".toList).truthy
        then setAdd stack "React Router".toList else stack
      .ok stack

/-! ## Components, entry point, description, setup steps -/

/-- The function `findImportantFiles`. -/
def findImportantFiles (files : Files) : List Str :=
  (files.map Prod.fst).filter (fun path => isImportantFile (lastSegment path))

/-- The strings `/\.(jsx?|tsx?|vue)$/` matches when the match has to start at their
first character: the pattern is anchored at the end of the input. -/
def componentExtensions : List Str :=
  [".js".toList, ".jsx".toList, ".ts".toList, ".tsx".toList, ".vue".toList]

/-- The call `componentPattern.test(s)`: some position of `s` starts a match. -/
def componentPatternTest (s : Str) : Bool := s.tails.any (fun t => componentExtensions.contains t)

/-- The call `s.replace(componentPattern, '')`: the leftmost match, which reaches the
end of `s`, is removed. -/
def componentPatternStrip : Str → Str
  | [] => []
  | c :: cs => if componentExtensions.contains (c :: cs) then [] else c :: componentPatternStrip cs

structure ComponentRef where
  name : Str
  file : Str
  purpose : Str
  deriving DecidableEq, Repr

/-- The `for ... of Object.entries(files)` loop of `analyzeComponents`, with its `break`. -/
def componentsLoop : Files → List ComponentRef → List ComponentRef
  | [], components => components
  | (path, file) :: rest, components =>
    if !file.dir && componentPatternTest path && includes path "component".toList then
      let filename := lastSegment path
      let name := componentPatternStrip filename
      let components := components ++
        [{ name := name, file := path, purpose := "Component: ".toList ++ name }]
      if components.length ≥ 5 then components else componentsLoop rest components
    else componentsLoop rest components

/-- The function `analyzeComponents`. -/
def analyzeComponents (files : Files) : List ComponentRef := componentsLoop files []

/-- The function `findEntryPoint`; entries are objects, so `files[k]` is truthy
exactly when `k` is a key. -/
def findEntryPoint (files : Files) : Str :=
  let entryPoints : List Str :=
    ["src/index.js".toList, "src/index.jsx".toList, "src/main.js".toList, "index.js".toList]
  let hasKey (k : Str) : Bool := (List.lookup k files).isSome
  match entryPoints.find? (fun entry => hasKey entry || hasKey ("./".toList ++ entry)) with
  | some entry => entry
  | none => "index.js".toList

/-- The function `generateDescription`. -/
def generateDescription (techStack : List Str) (components : List ComponentRef) : Str :=
  let tech := joinWith ", ".toList techStack
  "A modern web application built with ".toList ++ tech ++ ". Contains ".toList ++
    (Nat.repr components.length).toList ++ " key components with modular architecture.".toList

/-- The expression `v?.includes('3000')` as a condition: `undefined` when `v` is
nullish, the substring test on a string, the membership test on an array, and a
`TypeError` on any other value, whose `includes` is not a function. -/
def includes3000 : JsVal → Except JsError Bool
  | .undefined => .ok false
  | .null => .ok false
  | .str s => .ok (includes s "3000".toList)
  | .arr items => .ok (items.any (fun v => match v with | .str s => decide (s = "3000".toList) | _ => false))
  | _ => .error .typeError

/-- The function `generateSetupSteps`; `none` is the initial `null`. -/
def generateSetupSteps (packageJson : Option JsVal) : Except JsError (List Str) :=
  match packageJson with
  | some pj =>
    if pj.truthy then
      let steps : List Str := ["npm install".toList]
      let scripts := pj.get "scripts".toList
      if scripts.truthy then
        let dev := scripts.get "dev".toList
        let start := scripts.get "start".toList
        let steps := if dev.truthy then steps ++ ["npm run dev".toList]
          else if start.truthy then steps ++ ["npm start".toList] else steps
        match includes3000 dev with
        | .error e => .error e
        | .ok true => .ok (steps ++ ["Open http://localhost:3000".toList])
        | .ok false =>
          match includes3000 start with
          | .error e => .error e
          | .ok true => .ok (steps ++ ["Open http://localhost:3000".toList])
          | .ok false => .ok (steps ++ ["Open http://localhost:5173".toList])
      else .ok steps
    else .ok ["npm install".toList, "npm start".toList, "Open http://localhost:3000".toList]
  | none => .ok ["npm install".toList, "npm start".toList, "Open http://localhost:3000".toList]

/-- The call `s.replace(pat, rep)` with a string pattern: the first occurrence only. -/
def replaceFirst (pat rep : Str) : Str → Str
  | [] => if pat = [] then rep else []
  | c :: cs =>
    if pat.isPrefixOf (c :: cs) then rep ++ (c :: cs).drop pat.length
    else c :: replaceFirst pat rep cs

/-! ## analyzeProject -/

/-- The value of the constant `packageFile`: `contents.files['package.json']` is an
entry object, `Object.keys(...).find(...)` is a key or `undefined`. -/
inductive PackageFile where
  | entryObject (e : ZipEntry)
  | key (k : Str)
  | undefined

/-- The property key a `packageFile` value is converted to in `contents.files[packageFile]`:
an entry object has no `toString` of its own and converts to `[object Object]`. -/
def PackageFile.toPropertyKey : PackageFile → Str
  | .entryObject _ => "[object Object]".toList
  | .key k => k
  | .undefined => "undefined".toList

/-- Truthiness of `packageFile`. -/
def PackageFile.truthy : PackageFile → Bool
  | .entryObject _ => true
  | .key k => decide (k ≠ [])
  | .undefined => false

/-- The initialiser of `packageFile`. -/
def findPackageFile (files : Files) : PackageFile :=
  match List.lookup "package.json".toList files with
  | some e => .entryObject e
  | none =>
    match (files.map Prod.fst).find? (fun f => endsWith f "package.json".toList) with
    | some k => .key k
    | none => .undefined

/-- The uploaded `File`: its name, and the mapping `zip.loadAsync(file)` resolves to
(`none` when it rejects). -/
structure UploadedFile where
  name : Str
  contents : Option Files

/-- The object `analyzeProject` returns; `fileTree` is its property `structure`. -/
structure ProjectData where
  name : Str
  techStack : List Str
  fileTree : Lookup
  description : Str
  components : List ComponentRef
  entryPoint : Str
  setupSteps : List Str
  packageJson : Option JsVal

/-- The `if (packageFile && ...)` block: the new values of `techStack` and `packageJson`. -/
def readManifest (parse : Str → Option JsVal) (files : Files) :
    Except JsError (List Str × Option JsVal) :=
  let packageFile := findPackageFile files
  if packageFile.truthy then
    match List.lookup packageFile.toPropertyKey files with
    | none => .error .typeError
    | some entry =>
      if !entry.dir then
        match parse entry.text with
        | none => .error .syntaxError
        | some packageJson =>
          match detectTechStack packageJson with
          | .error e => .error e
          | .ok techStack => .ok (techStack, some packageJson)
      else .ok ([], none)
  else .ok ([], none)

/-- The `try` block of `analyzeProject`; `parse` is `JSON.parse` (`none`: it throws). -/
def analyzeProjectTry (parse : Str → Option JsVal) (file : UploadedFile) :
    Except JsError ProjectData :=
  match file.contents with
  | none => .error .typeError
  | some files =>
    match buildFileTree files with
    | .error e => .error e
    | .ok fileTree =>
      match readManifest parse files with
      | .error e => .error e
      | .ok (techStack, packageJson) =>
        let _importantFiles := findImportantFiles files
        let components := analyzeComponents files
        match generateSetupSteps packageJson with
        | .error e => .error e
        | .ok setupSteps =>
          .ok { name := replaceFirst ".zip".toList [] file.name
                techStack := techStack
                fileTree := fileTree
                description := generateDescription techStack components
                components := components
                entryPoint := findEntryPoint files
                setupSteps := setupSteps
                packageJson := packageJson }

/-- The function `analyzeProject`: `none` is the `null` of the `catch` block. -/
def analyzeProject (parse : Str → Option JsVal) (file : UploadedFile) : Option ProjectData :=
  match analyzeProjectTry parse file with
  | .ok data => some data
  | .error _ => none

/-! ## VideoPlayer: the narration chapters -/

inductive Avatar where
  | jonas
  | sarah
  deriving DecidableEq, Repr

/-- The `name` field of `avatars[selectedAvatar]`. -/
def Avatar.displayName : Avatar → Str
  | .jonas => "Jonas".toList
  | .sarah => "Sarah".toList

/-- The props of `VideoPlayer`; `none` is a prop that is `undefined`. -/
structure Props where
  projectName : Str
  techStack : Option (List Str)
  description : Str
  fileTree : Option Lookup
  components : Option (List ComponentRef)

structure Chapter where
  time : Int
  duration : Int
  title : Str
  icon : Str
  script : Str
  deriving DecidableEq, Repr

/-- The function `getTechExplanation`. The object literal `explanations` inherits the
members of `Object.prototype`; `inheritedText key` is the text the template literal
gives such a member, which depends on the JavaScript engine. -/
def getTechExplanation (inheritedText : Str → Str) (stack : Option (List Str)) : Str :=
  match stack with
  | none => []
  | some [] => []
  | some (main :: _) =>
    let explanations : List (Str × Str) :=
      [("React".toList, "React provides a component-based architecture for building dynamic UIs".toList),
       ("Vue.js".toList, "Vue offers reactive data binding and a progressive framework".toList),
       ("Next.js".toList, "Next.js adds server-side rendering and routing to React".toList),
       ("Express.js".toList, "Express handles the backend API and server logic".toList)]
    match List.lookup main explanations with
    | some text => text
    | none =>
      if objectPrototypeKeys.contains main then inheritedText main
      else main ++ " powers the core functionality".toList

/-- The node objects an array of references stands for. -/
def Lookup.nodes (store : Lookup) (refs : List Str) : List FileNode :=
  refs.filterMap (fun r => store.own r)

/-- The function `getStructureDesc`, applied to the root of a store. -/
def getStructureDesc (struct : Option Lookup) : Str :=
  match struct.bind (fun store => (store.own []).bind (fun root => root.children.map (store.nodes ·))) with
  | none => "Files are organized logically".toList
  | some children =>
    let store := struct.getD []
    let hasSrc := children.any (fun c => decide (c.name = "src".toList))
    let hasComponents := children.any (fun c =>
      match c.children with
      | some refs => (store.nodes refs).any (fun ch => decide (ch.name = "components".toList))
      | none => false)
    let desc : Str := []
    let desc := if hasSrc then desc ++ "Source code lives in the src directory. ".toList else desc
    let desc := if hasComponents then desc ++ "Components are modular and reusable. ".toList else desc
    if desc ≠ [] then desc else "Code is well organized".toList

/-- The array `chapters`, computed on every render from the props and `selectedAvatar`. -/
def chapters (inheritedText : Str → Str) (props : Props) (selectedAvatar : Avatar) : List Chapter :=
  [ { time := 0, duration := 25, title := "Introduction".toList, icon := "👋".toList,
      script := "Hi! I'm ".toList ++ selectedAvatar.displayName ++ ". Let me explain ".toList ++
        props.projectName ++ " to you. ".toList ++ props.description },
    { time := 25, duration := 35, title := "Tech Stack".toList, icon := "⚡".toList,
      script :=
        match props.techStack with
        | some (t :: ts) =>
          "This project uses ".toList ++ joinWith ", ".toList ((t :: ts).take 3) ++ ". ".toList ++
            getTechExplanation inheritedText props.techStack
        | _ => "This project uses modern web technologies.".toList },
    { time := 60, duration := 40, title := "Structure".toList, icon := "📁".toList,
      script := "The project has a well-organized structure. ".toList ++
        getStructureDesc props.fileTree },
    { time := 100, duration := 35, title := "Components".toList, icon := "🧩".toList,
      script :=
        match props.components with
        | some (c :: cs) =>
          "Key components include ".toList ++
            joinWith ", ".toList (((c :: cs).take 3).map (fun c => c.name)) ++
            ". Each handles a specific part of the UI.".toList
        | _ => "The app is built with modular, reusable components.".toList },
    { time := 135, duration := 25, title := "Setup".toList, icon := "🚀".toList,
      script := "To run: install dependencies with npm install, then start with npm start. That's it!".toList } ]

/-- The constant `totalDuration`: `chapters.reduce((sum, ch) => sum + ch.duration, 0)`. -/
def totalDuration (chs : List Chapter) : Int := chs.foldl (fun sum ch => sum + ch.duration) 0

/-- The call `xs.findIndex((x, i) => p x i)`, scanning from index `i`; `none` is `-1`. -/
def findIndexFrom {α : Type} (p : α → Nat → Bool) : List α → Nat → Option Nat
  | [], _ => none
  | x :: xs, i => if p x i then some i else findIndexFrom p xs (i + 1)

/-! ## VideoPlayer: the playback controller -/

/-- What the component does to `window.speechSynthesis`: `cancel()`, and the
`setTimeout` of `speak`, which 100 ms later utters `text` with the captured avatar's
voice and pitch and the captured volume. The browser is one that has
`window.speechSynthesis`. -/
inductive SpeechEvent where
  | cancel
  | utterLater (text : Str) (avatar : Avatar) (volume : ℚ)
  deriving DecidableEq

/-- A running `setInterval` timer: its id and the values of the render in which
`togglePlay` created its callback, which the callback keeps using. -/
structure Timer where
  id : Nat
  currentChapter : Nat
  isMuted : Bool
  selectedAvatar : Avatar
  volume : ℚ
  deriving DecidableEq

/-- The state of a mounted `VideoPlayer`: its `useState` cells, `intervalRef.current`,
the interval timers alive in the browser, and the log of speech events. -/
structure Player where
  isPlaying : Bool
  currentChapter : Nat
  currentTime : Int
  volume : ℚ
  isMuted : Bool
  selectedAvatar : Avatar
  intervalRef : Option Nat
  timers : List Timer
  nextTimerId : Nat
  speech : List SpeechEvent
  deriving DecidableEq

/-- The state after mounting. -/
def Player.initial : Player :=
  { isPlaying := false, currentChapter := 0, currentTime := 0, volume := 1, isMuted := false,
    selectedAvatar := .jonas, intervalRef := none, timers := [], nextTimerId := 1, speech := [] }

/-- The events of a call `speak(text)` made by a closure that sees `isMuted`,
`selectedAvatar` and `volume`. -/
def speak (isMuted : Bool) (selectedAvatar : Avatar) (volume : ℚ) (text : Str) : List SpeechEvent :=
  if !isMuted then [.cancel, .utterLater text selectedAvatar volume] else []

/-- The expression `chapters[i].script`. -/
def scriptAt (chs : List Chapter) (i : Nat) : Str := (chs.get? i).elim [] (fun ch => ch.script)

/-- The call `clearInterval(id)`. -/
def clearInterval (id : Option Nat) (timers : List Timer) : List Timer :=
  timers.filter (fun t => some t.id ≠ id)

/-- The handler `togglePlay`, run in the render of state `s`. -/
def togglePlay (inheritedText : Str → Str) (props : Props) (s : Player) : Player :=
  let chs := chapters inheritedText props s.selectedAvatar
  if s.isPlaying then
    { s with
      isPlaying := false
      speech := s.speech ++ [.cancel]
      timers := clearInterval s.intervalRef s.timers
      intervalRef := none }
  else
    { s with
      isPlaying := true
      speech := s.speech ++ speak s.isMuted s.selectedAvatar s.volume (scriptAt chs s.currentChapter)
      intervalRef := some s.nextTimerId
      timers := s.timers ++
        [{ id := s.nextTimerId, currentChapter := s.currentChapter, isMuted := s.isMuted,
           selectedAvatar := s.selectedAvatar, volume := s.volume }]
      nextTimerId := s.nextTimerId + 1 }

/-- One firing of the interval callback of the live timer `t`: the updater passed to
`setCurrentTime`, with the state changes it requests. -/
def tick (inheritedText : Str → Str) (props : Props) (t : Timer) (s : Player) : Player :=
  let chs := chapters inheritedText props t.selectedAvatar
  let newTime := s.currentTime + 1
  let nextChapter := findIndexFrom (fun ch i => decide (i > t.currentChapter) && decide (newTime ≥ ch.time)) chs 0
  let s1 : Player :=
    match nextChapter with
    | some n =>
      { s with
        currentChapter := n
        speech := s.speech ++ speak t.isMuted t.selectedAvatar t.volume (scriptAt chs n) }
    | none => s
  if newTime ≥ totalDuration chs then
    { s1 with
      isPlaying := false
      speech := s1.speech ++ [.cancel]
      timers := clearInterval s1.intervalRef s1.timers
      currentTime := 0
      currentChapter := 0 }
  else { s1 with currentTime := newTime }

/-- The function `seekTo`, run in the render of state `s`. -/
def seekTo (inheritedText : Str → Str) (props : Props) (time : Int) (s : Player) : Player :=
  let chs := chapters inheritedText props s.selectedAvatar
  let chapterIndex := findIndexFrom
    (fun ch i => decide (time ≥ ch.time) &&
      (decide (i = chs.length - 1) || decide (time < (chs.get? (i + 1)).elim 0 (fun c => c.time)))) chs 0
  let s1 : Player := { s with currentTime := time }
  match chapterIndex with
  | some idx =>
    { s1 with
      currentChapter := idx
      speech := if s.isPlaying
        then s.speech ++ [.cancel] ++ speak s.isMuted s.selectedAvatar s.volume (scriptAt chs idx)
        else s.speech }
  | none => s1

/-- The handler `toggleMute`, run in the render of state `s`. -/
def toggleMute (inheritedText : Str → Str) (props : Props) (s : Player) : Player :=
  let chs := chapters inheritedText props s.selectedAvatar
  { s with
    isMuted := !s.isMuted
    speech :=
      if !s.isMuted then s.speech ++ [.cancel]
      else if s.isPlaying then
        s.speech ++ speak s.isMuted s.selectedAvatar s.volume (scriptAt chs s.currentChapter)
      else s.speech }

/-- The `onClick` of the reset button. -/
def resetClick (s : Player) : Player :=
  { s with currentTime := 0, currentChapter := 0, isPlaying := false, speech := s.speech ++ [.cancel] }

/-- The events that drive a mounted player: the three handlers, the reset button,
and a firing of the interval timer with the given id. -/
inductive PlayerEvent where
  | togglePlay
  | seekTo (time : Int)
  | toggleMute
  | reset
  | tick (id : Nat)
  deriving DecidableEq

/-- One event; a timer fires only while it is alive. -/
def step (inheritedText : Str → Str) (props : Props) (s : Player) : PlayerEvent → Player
  | .togglePlay => togglePlay inheritedText props s
  | .seekTo time => seekTo inheritedText props time s
  | .toggleMute => toggleMute inheritedText props s
  | .reset => resetClick s
  | .tick id =>
    match s.timers.find? (fun t => t.id = id) with
    | some t => tick inheritedText props t s
    | none => s

/-- A sequence of events, from the state `s`. -/
def run (inheritedText : Str → Str) (props : Props) (s : Player) (events : List PlayerEvent) :
    Player :=
  events.foldl (step inheritedText props) s

/-! ## AIChat: the responder -/

/-- The function `getAIResponse`; `techStack` is `projectData.techStack`. -/
def getAIResponse (techStack : List Str) (query : Str) : Str :=
  if includes query "navbar".toList then
    "The Navbar component is located at \x60src/components/Navbar.jsx\x60. It handles the main navigation with logo, menu items, and cart icon.".toList
  else if includes query "run".toList || includes query "start".toList then
    "To run this project:\n1. npm install\n2. npm start\n3. Open http://localhost:3000".toList
  else if includes query "app.jsx".toList then
    "App.jsx is the main component that renders all other components. It's the entry point of your React application.".toList
  else if includes query "folder".toList || includes query "structure".toList then
    "The project has a standard React structure:\n- \x60src/\x60 contains all source code\n- \x60public/\x60 has static files\n- \x60components/\x60 folder has all React components".toList
  else if includes query "tech stack".toList || includes query "technologies".toList then
    "This project uses: ".toList ++ joinWith ", ".toList techStack ++
      ". All modern and production-ready technologies!".toList
  else
    "I can help you understand the code! Try asking about specific components, how to run the project, or the tech stack used.".toList

def fileEntry (text : String) : ZipEntry := { dir := false, text := text.toList }

def dirEntry : ZipEntry := { dir := true, text := [] }

deriving instance DecidableEq for Except

/-! ## Specification-side definitions -/

/-- The selection predicate of the Component Locator in the words of the
specification: not a directory, the path ends in one of the five extensions, and the
path contains `component`. -/
def isComponentEntry (pe : Str × ZipEntry) : Bool :=
  !pe.2.dir && decide (∃ ext ∈ componentExtensions, ext <:+ pe.1) &&
    decide ("component".toList <:+: pe.1)

/-- The rule table of the Tech Stack Classifier in the words of the specification:
the package names mapped to each label, in rule order. -/
def techRules : List (List Str × Str) :=
  [(["react".toList], "React".toList),
   (["react-dom".toList], "React DOM".toList),
   (["next".toList], "Next.js".toList),
   (["vue".toList], "Vue.js".toList),
   (["angular".toList], "Angular".toList),
   (["express".toList], "Express.js".toList),
   (["mongodb".toList, "mongoose".toList], "MongoDB".toList),
   (["framer-motion".toList], "Framer Motion".toList),
   (["tailwindcss".toList], "Tailwind CSS".toList),
   (["typescript".toList], "TypeScript".toList),
   (["axios".toList], "Axios".toList),
   (["react-router-dom".toList], "React Router".toList)]

/-- The value a value holds under the own key `name`, if it has that key (for a key
written twice in the list, the later one, as when the properties are assigned in turn). -/
def propOf (v : JsVal) (name : Str) : Option JsVal := List.lookup name (ownProps v).reverse

/-- The value of `name` in the merge of the two mappings when the entry of
`devDependencies` takes precedence: that of `devDependencies` if `name` is a key of
it, else that of `dependencies`, else `undefined`. -/
def mergedValue (dependencies devDependencies : JsVal) (name : Str) : JsVal :=
  ((propOf devDependencies name).or (propOf dependencies name)).getD .undefined

/-- A manifest object with the two mappings and further fields. -/
def manifest (dependencies devDependencies rest : List (Str × JsVal)) : JsVal :=
  .obj (("dependencies".toList, .obj dependencies) ::
    ("devDependencies".toList, .obj devDependencies) :: rest)

/-- The non-empty path prefixes of a key in the words of the specification: split
the key on `/`, discard the empty segments, and take every leading run of segments
that is not empty. -/
def keyPrefixes (key : Str) : List (List Str) := (pathParts key).inits.tail

/-- The distinct non-empty path prefixes of the keys of a mapping. -/
def distinctPrefixes (files : Files) : List (List Str) :=
  (files.flatMap (fun pe => keyPrefixes pe.1)).dedup

/-- The nodes of a store other than the root. -/
def Lookup.nonRoot (store : Lookup) : Lookup := store.filter (fun kn => kn.1 ≠ [])

/-- The text of the manifest of the scenario, with `react` and `express`. -/
def scenarioManifestText : Str :=
  "\x7b\"dependencies\":\x7b\"react\":\"18.0.0\",\"express\":\"4.0.0\"\x7d\x7d".toList

/-- The value `JSON.parse` gives for `scenarioManifestText`. -/
def scenarioManifest : JsVal :=
  .obj [("dependencies".toList,
    .obj [("react".toList, .str "18.0.0".toList), ("express".toList, .str "4.0.0".toList)])]

/-- The component record the loop pushes for a path. -/
def componentOf (path : Str) : ComponentRef :=
  { name := componentPatternStrip (lastSegment path)
    file := path
    purpose := "Component: ".toList ++ componentPatternStrip (lastSegment path) }

/-- The conditions of the twelve `if` statements, paired with the labels they add. -/
def ruleHits (deps : JsVal) : List (Bool × Str) :=
  [((deps.get "react".toList).truthy, "React".toList),
   ((deps.get "react-dom".toList).truthy, "React DOM".toList),
   ((deps.get "next".toList).truthy, "Next.js".toList),
   ((deps.get "vue".toList).truthy, "Vue.js".toList),
   ((deps.get "angular".toList).truthy, "Angular".toList),
   ((deps.get "express".toList).truthy, "Express.js".toList),
   ((deps.get "mongodb".toList).truthy || (deps.get "mongoose".toList).truthy, "MongoDB".toList),
   ((deps.get "framer-motion".toList).truthy, "Framer Motion".toList),
   ((deps.get "tailwindcss".toList).truthy, "Tailwind CSS".toList),
   ((deps.get "typescript".toList).truthy, "TypeScript".toList),
   ((deps.get "axios".toList).truthy, "Axios".toList),
   ((deps.get "react-router-dom".toList).truthy, "React Router".toList)]

/-- The labels of the rules, in rule order. -/
def ruleLabels : List Str := techRules.map Prod.snd

/-- The props of a small project, for the concrete instances below. -/
def sampleProps : Props :=
  { projectName := "shop".toList
    techStack := some ["React".toList, "Express.js".toList]
    description := "A modern web application.".toList
    fileTree := none
    components := some [] }

/-- The run-instructions reply of the Chat Responder. -/
def runInstructions : Str :=
  "To run this project:\n1. npm install\n2. npm start\n3. Open http://localhost:3000".toList

/-- The generic help message of the Chat Responder. -/
def genericHelp : Str :=
  "I can help you understand the code! Try asking about specific components, how to run the project, or the tech stack used.".toList

/-- The ordered rule table of the Chat Responder in the words of the specification:
keyword sets with their replies. -/
def chatRules (techStack : List Str) : List (List Str × Str) :=
  [(["navbar".toList],
    "The Navbar component is located at \x60src/components/Navbar.jsx\x60. It handles the main navigation with logo, menu items, and cart icon.".toList),
   (["run".toList, "start".toList], runInstructions),
   (["app.jsx".toList],
    "App.jsx is the main component that renders all other components. It's the entry point of your React application.".toList),
   (["folder".toList, "structure".toList],
    "The project has a standard React structure:\n- \x60src/\x60 contains all source code\n- \x60public/\x60 has static files\n- \x60components/\x60 folder has all React components".toList),
   (["tech stack".toList, "technologies".toList],
    "This project uses: ".toList ++ joinWith ", ".toList techStack ++
      ". All modern and production-ready technologies!".toList)]

/-- First-match-wins evaluation of a rule table: the reply of the first rule one of
whose keywords occurs in the query, else the fallback. -/
def firstMatch (rules : List (List Str × Str)) (fallback : Str) (query : Str) : Str :=
  match rules.find? (fun r => r.1.any (fun kw => decide (kw <:+: query))) with
  | some r => r.2
  | none => fallback

/-- The path a node has below a parent with the path `parent` (empty for the root):
the segments joined by `/`. -/
def childPath (parent name : Str) : Str := if parent ≠ [] then parent ++ '/' :: name else name

/-- The paths of the prefixes of a key, shortest first. -/
def prefixPaths (key : Str) : List Str := (keyPrefixes key).map (joinWith "/".toList)

/-- The elements of a list in the order of their first occurrence. -/
def firstOccurrences (l : List Str) : List Str :=
  l.foldl (fun acc x => if x ∈ acc then acc else acc ++ [x]) []

/-- The timer `togglePlay` creates in the initial state. -/
def firstTimer : Timer :=
  { id := 1, currentChapter := 0, isMuted := false, selectedAvatar := .jonas, volume := 1 }

/-- Playback from the initial state: `togglePlay`, then `n` firings of its timer. -/
def playFor (inheritedText : Str → Str) (props : Props) (n : Nat) : Player :=
  run inheritedText props Player.initial (.togglePlay :: List.replicate n (.tick 1))

/-- The texts uttered once a handler that produced `events` has returned: each
`utterLater` is a `setTimeout` of 100 ms, which no `cancel()` clears, so its utterance
starts after every `cancel()` of the same handler. -/
def utteredAfter (events : List SpeechEvent) : List Str :=
  events.filterMap (fun e => match e with
    | .utterLater text _ _ => some text
    | .cancel => none)

/-- What the test `if (!lookup[current])` does to the list of keys: a key that is
present, or that names an inherited property, is left out. -/
def addNewKey (keys : List Str) (c : Str) : List Str :=
  if c ∈ keys ∨ c ∈ objectPrototypeKeys then keys else keys ++ [c]

/-- The values the variable `current` takes while the parts are walked. -/
def pathsFrom : Str → List Str → List Str
  | _, [] => []
  | current, part :: rest => childPath current part :: pathsFrom (childPath current part) rest

/-- The invariant of the store of node objects while the tree is built. -/
structure StoreInv (store : Lookup) : Prop where
  nodupKeys : (store.map Prod.fst).Nodup
  root : ∃ r, store.own [] = some r ∧ r.name = "root".toList ∧ r.path = none ∧ r.important = none
  pathKey : ∀ k n, store.own k = some n → k ≠ [] →
    n.path = some k ∧ n.important = some (isImportantFile n.name)
  childrenFolder : ∀ k n, store.own k = some n → (n.children.isSome = true ↔ n.type = .folder)
  childPaths : ∀ p pn cs c, store.own p = some pn → pn.children = some cs → c ∈ cs →
    c ≠ [] ∧ ∃ cn, store.own c = some cn ∧ c = childPath p cn.name
  hasParent : ∀ k n, store.own k = some n → k ≠ [] →
    ∃ p pn cs, store.own p = some pn ∧ pn.children = some cs ∧ k ∈ cs
  childOrder : ∀ p pn cs, store.own p = some pn → pn.children = some cs →
    cs.Sublist (store.map Prod.fst)

/-- A small archive mapping, for the concrete instances below. -/
def sampleFiles : Files :=
  [("src/".toList, dirEntry), ("src/App.js".toList, fileEntry ""),
   ("README.md".toList, fileEntry "")]

/-! ## UploadZone -/

/-- The test of `handleFile` in `UploadZone.jsx`: the file is passed on to
`onUpload`, and so to `analyzeProject`, when its name ends in `.zip`. -/
def handleFileAccepts (name : Str) : Bool := endsWith name ".zip".toList

/-- Two values that differ at most in the order of the keys of a mapping: the same
value (an absent field, `undefined`, included), or two objects with distinct keys
whose properties are a permutation of each other. -/
def SameUpToKeyOrder (v v' : JsVal) : Prop :=
  v = v' ∨ ∃ d d', v = .obj d ∧ v' = .obj d' ∧ d.Perm d' ∧ (d.map Prod.fst).Nodup

/-- The manifest of the scenario with the keys of `dependencies` in the other order. -/
def scenarioManifestSwapped : JsVal :=
  .obj [("dependencies".toList,
    .obj [("express".toList, .str "4.0.0".toList), ("react".toList, .str "18.0.0".toList)])]

/-! ## VideoPlayer: `seekTo` on an arbitrary number -/

/-- A JavaScript number as `seekTo` can observe it: `seekTo` stores its argument and
compares it with the integer start offsets, and does no arithmetic on it. A finite
number is given by its value, so `-0` is `0`. -/
inductive JsNumber where
  | nan
  | negInf
  | posInf
  | finite (q : ℚ)
  deriving DecidableEq

/-- An integer as a number. -/
def JsNumber.ofInt (n : Int) : JsNumber := .finite n

/-- The comparison `x < y`, which is false when an operand is `NaN`. -/
def JsNumber.lt : JsNumber → JsNumber → Bool
  | .nan, _ => false
  | _, .nan => false
  | _, .negInf => false
  | .negInf, _ => true
  | .posInf, _ => false
  | .finite _, .posInf => true
  | .finite a, .finite b => decide (a < b)

/-- The comparison `x >= y`: false when an operand is `NaN`, else the negation of
`x < y`. -/
def JsNumber.ge : JsNumber → JsNumber → Bool
  | .nan, _ => false
  | _, .nan => false
  | x, y => !(x.lt y)

/-- The state of a mounted `VideoPlayer` whose `currentTime` cell holds any number;
the other cells are those of `Player`. -/
structure NumberPlayer where
  isPlaying : Bool
  currentChapter : Nat
  currentTime : JsNumber
  volume : ℚ
  isMuted : Bool
  selectedAvatar : Avatar
  intervalRef : Option Nat
  timers : List Timer
  nextTimerId : Nat
  speech : List SpeechEvent
  deriving DecidableEq

/-- A player state with an integer elapsed time, as a state whose elapsed time is a
number. -/
def Player.toNumberPlayer (s : Player) : NumberPlayer :=
  { isPlaying := s.isPlaying, currentChapter := s.currentChapter,
    currentTime := .ofInt s.currentTime, volume := s.volume, isMuted := s.isMuted,
    selectedAvatar := s.selectedAvatar, intervalRef := s.intervalRef, timers := s.timers,
    nextTimerId := s.nextTimerId, speech := s.speech }

/-- The function `seekTo` for an argument that is any number, run in the render of
state `s`. -/
def seekToNumber (inheritedText : Str → Str) (props : Props) (time : JsNumber)
    (s : NumberPlayer) : NumberPlayer :=
  let chs := chapters inheritedText props s.selectedAvatar
  let chapterIndex := findIndexFrom
    (fun ch i => time.ge (.ofInt ch.time) &&
      (decide (i = chs.length - 1) ||
        time.lt (.ofInt ((chs.get? (i + 1)).elim 0 (fun c => c.time))))) chs 0
  let s1 : NumberPlayer := { s with currentTime := time }
  match chapterIndex with
  | some idx =>
    { s1 with
      currentChapter := idx
      speech := if s.isPlaying
        then s.speech ++ [.cancel] ++ speak s.isMuted s.selectedAvatar s.volume (scriptAt chs idx)
        else s.speech }
  | none => s1

/-- The call `Math.min(x, y)`. -/
def JsNumber.min : JsNumber → JsNumber → JsNumber
  | .nan, _ => .nan
  | _, .nan => .nan
  | x, y => if x.lt y then x else y

/-- The call `Math.max(x, y)`. -/
def JsNumber.max : JsNumber → JsNumber → JsNumber
  | .nan, _ => .nan
  | _, .nan => .nan
  | x, y => if x.lt y then y else x

/-- The value `clamp(t, lo, hi)` of the specification: `Math.max(lo, Math.min(t, hi))`. -/
def JsNumber.clamp (t lo hi : JsNumber) : JsNumber := JsNumber.max lo (JsNumber.min t hi)

/-! ## Strings: lemmas -/

theorem includes_iff (s pat : Str) : includes s pat = true ↔ pat <:+: s := by
  simp only [includes, List.any_eq_true, List.mem_tails, List.isPrefixOf_iff_prefix]
  rw [List.infix_iff_prefix_suffix]
  constructor
  · rintro ⟨t, h1, h2⟩
    exact ⟨t, h2, h1⟩
  · rintro ⟨t, h1, h2⟩
    exact ⟨t, h2, h1⟩

theorem componentPatternTest_iff (s : Str) :
    componentPatternTest s = true ↔ ∃ ext ∈ componentExtensions, ext <:+ s := by
  simp only [componentPatternTest, List.any_eq_true, List.mem_tails, List.elem_eq_mem,
    List.contains, decide_eq_true_eq]
  constructor
  · rintro ⟨t, h1, h2⟩
    exact ⟨t, h2, h1⟩
  · rintro ⟨t, h1, h2⟩
    exact ⟨t, h2, h1⟩

theorem splitAux_ne_nil (s cur : List Char) : splitAux s cur ≠ [] := by
  induction s generalizing cur with
  | nil => simp [splitAux]
  | cons c cs ih =>
    unfold splitAux
    split
    · simp
    · exact ih _

/-- The last element of the split is the part of the text after its last slash. -/
theorem splitAux_getLast (s cur : List Char) (hcur : '/' ∉ cur) :
    ∃ pre last, (splitAux s cur).getLast? = some last ∧ cur.reverse ++ s = pre ++ last ∧
      '/' ∉ last ∧ (pre = [] ∨ ∃ p, pre = p ++ ['/']) := by
  induction s generalizing cur with
  | nil =>
    refine ⟨[], cur.reverse, ?_, ?_, ?_, Or.inl rfl⟩
    · simp [splitAux]
    · simp
    · simpa using hcur
  | cons c cs ih =>
    unfold splitAux
    split
    · next hc =>
      subst hc
      obtain ⟨pre, last, h1, h2, h3, h4⟩ := ih [] (by simp)
      refine ⟨cur.reverse ++ ['/'] ++ pre, last, ?_, ?_, h3, Or.inr ?_⟩
      · rw [List.getLast?_cons, h1]
        rfl
      · simp only [List.reverse_nil, List.nil_append] at h2
        simp [h2]
      · rcases h4 with h4 | ⟨p, h4⟩
        · exact ⟨cur.reverse, by simp [h4]⟩
        · exact ⟨cur.reverse ++ ['/'] ++ p, by simp [h4]⟩
    · next hc =>
      obtain ⟨pre, last, h1, h2, h3, h4⟩ := ih (c :: cur) (by
        simp only [List.mem_cons, not_or]
        exact ⟨fun h => hc h.symm, hcur⟩)
      refine ⟨pre, last, h1, ?_, h3, h4⟩
      simpa using h2

/-- The last segment of a path: what follows its last slash. -/
theorem lastSegment_spec (path : Str) :
    ∃ pre, path = pre ++ lastSegment path ∧ '/' ∉ lastSegment path ∧
      (pre = [] ∨ ∃ p, pre = p ++ ['/']) := by
  obtain ⟨pre, last, h1, h2, h3, h4⟩ := splitAux_getLast path [] (by simp)
  refine ⟨pre, ?_, ?_, h4⟩
  · simp only [lastSegment, splitSlash, h1, Option.getD_some]
    simpa using h2
  · simpa only [lastSegment, splitSlash, h1, Option.getD_some] using h3

/-- A suffix of a path that has no slash is a suffix of the last segment. -/
theorem suffix_lastSegment (path ext : Str) (hs : ext <:+ path) (hno : '/' ∉ ext) :
    ext <:+ lastSegment path := by
  obtain ⟨pre, h1, h2, h3⟩ := lastSegment_spec path
  have hl : lastSegment path <:+ path := ⟨pre, h1.symm⟩
  rcases List.suffix_or_suffix_of_suffix hs hl with h | h
  · exact h
  · obtain ⟨a, ha⟩ := hs
    obtain ⟨b, hb⟩ := h
    rcases h3 with h3 | ⟨p, h3⟩
    · subst h3
      rw [List.nil_append] at h1
      exact ⟨a, by rw [ha]; exact h1⟩
    · have hcat : a ++ b = pre := by
        have : (a ++ b) ++ lastSegment path = pre ++ lastSegment path := by
          rw [List.append_assoc, hb, ha]
          exact h1
        exact List.append_cancel_right this
      rcases List.eq_nil_or_concat b with hbn | ⟨b0, c, hbc⟩
      · subst hbn
        exact ⟨[], by simpa using hb.symm⟩
      · exfalso
        rw [hbc, h3, List.concat_eq_append, ← List.append_assoc] at hcat
        have hc : c = '/' := by
          have := List.append_inj_right' hcat rfl
          simpa using this
        apply hno
        rw [← hb, hbc, hc]
        simp

/-- On a string that ends in one of the extensions, the strip removes exactly it. -/
theorem componentPatternStrip_spec (s : Str) (h : ∃ ext ∈ componentExtensions, ext <:+ s) :
    ∃ ext ∈ componentExtensions, s = componentPatternStrip s ++ ext := by
  induction s with
  | nil =>
    obtain ⟨ext, hmem, hsuf⟩ := h
    have : ext = [] := List.eq_nil_of_suffix_nil hsuf
    subst this
    exact absurd hmem (by decide)
  | cons c cs ih =>
    unfold componentPatternStrip
    split
    · next hc =>
      exact ⟨c :: cs, by simpa using hc, by simp⟩
    · next hc =>
      obtain ⟨ext, hmem, hsuf⟩ := h
      have hcs : ext <:+ cs := by
        rcases List.suffix_cons_iff.mp hsuf with h | h
        · subst h
          exact absurd (by simpa using hmem) hc
        · exact h
      obtain ⟨ext', hmem', heq⟩ := ih ⟨ext, hmem, hcs⟩
      exact ⟨ext', hmem', by rw [List.cons_append, ← heq]⟩

theorem slash_not_mem_extension (ext : Str) (h : ext ∈ componentExtensions) : '/' ∉ ext := by
  simp only [componentExtensions, List.mem_cons, List.mem_singleton, List.not_mem_nil, or_false] at h
  rcases h with h | h | h | h | h <;> subst h <;> decide

/-! ## analyzeComponents: lemmas -/

/-- The selection test of the code agrees with the predicate of the specification. -/
theorem isComponentEntry_eq (path : Str) (file : ZipEntry) :
    (!file.dir && componentPatternTest path && includes path "component".toList) =
      isComponentEntry (path, file) := by
  have h1 : componentPatternTest path = decide (∃ ext ∈ componentExtensions, ext <:+ path) := by
    rw [Bool.eq_iff_iff, componentPatternTest_iff]
    simp
  have h2 : includes path "component".toList = decide ("component".toList <:+: path) := by
    rw [Bool.eq_iff_iff, includes_iff]
    simp
  simp only [isComponentEntry, h1, h2]

theorem componentsLoop_eq (files : Files) (acc : List ComponentRef) (hacc : acc.length < 5) :
    componentsLoop files acc =
      (acc ++ (files.filter isComponentEntry).map (fun pe => componentOf pe.1)).take 5 := by
  induction files generalizing acc with
  | nil =>
    simp only [componentsLoop, List.filter_nil, List.map_nil, List.append_nil]
    rw [List.take_of_length_le (by omega)]
  | cons pe rest ih =>
    obtain ⟨path, file⟩ := pe
    unfold componentsLoop
    rw [isComponentEntry_eq]
    by_cases hm : isComponentEntry (path, file) = true
    · simp only [hm, if_true, List.filter_cons_of_pos, List.map_cons]
      split
      · next hlen =>
        have hl : (acc ++ [componentOf path]).length = 5 := by
          simp only [List.length_append, List.length_singleton] at hlen ⊢
          omega
        have : acc ++ componentOf path :: List.map (fun pe => componentOf pe.1)
            (List.filter isComponentEntry rest) =
            (acc ++ [componentOf path]) ++ List.map (fun pe => componentOf pe.1)
            (List.filter isComponentEntry rest) := by simp
        rw [this, List.take_append_of_le_length (by omega), List.take_of_length_le (by omega)]
        rfl
      · next hlen =>
        have hl : (acc ++ [componentOf path]).length < 5 := by
          simp only [List.length_append, List.length_singleton] at hlen ⊢
          omega
        have := ih (acc ++ [componentOf path]) hl
        simp only [componentOf] at this ⊢
        rw [this]
        simp
    · rw [List.filter_cons_of_neg hm]
      simp only [hm]
      simpa using ih acc hacc

theorem analyzeComponents_eq (files : Files) :
    analyzeComponents files =
      ((files.filter isComponentEntry).take 5).map (fun pe => componentOf pe.1) := by
  rw [analyzeComponents, componentsLoop_eq files [] (by simp), List.nil_append, List.map_take]

/-! ## buildFileTree: theorems -/

/-- C1 (the code at a failing input): the mapping with the file entries `src` and
`src/App.js`, in this order, has two distinct path prefixes, and `buildFileTree`
throws on it instead of returning a tree with two nodes; in the other order it
returns the two nodes. -/
theorem buildFileTree_no_tree_for_file_prefix :
    (distinctPrefixes [("src".toList, fileEntry ""), ("src/App.js".toList, fileEntry "")]).length = 2 ∧
    buildFileTree [("src".toList, fileEntry ""), ("src/App.js".toList, fileEntry "")] =
      .error .typeError ∧
    (buildFileTree [("src/App.js".toList, fileEntry ""), ("src".toList, fileEntry "")]).toOption.map
      (fun store => store.nonRoot.map Prod.fst) = some ["src".toList, "src/App.js".toList] := by
  refine ⟨by decide, by decide, by decide⟩

/-- C2 (the code at a failing input): when the non-directory entry `a` is iterated
before `a/b`, the node `a` is created as a file, and `buildFileTree` throws at `a/b`
instead of completing with `a` as a folder. -/
theorem buildFileTree_throws_file_before_child :
    (buildFileTree [("a".toList, fileEntry "")]).toOption.map
      (fun store => (store.own "a".toList).map (fun n => n.type)) = some (some NodeType.file) ∧
    buildFileTree [("a".toList, fileEntry ""), ("a/b".toList, fileEntry "")] = .error .typeError := by
  refine ⟨by decide, by decide⟩

/-! ## analyzeProject: theorems -/

/-- An archive with a root-level `package.json` cannot be analysed: `packageFile` is
then the entry object, and `contents.files[packageFile]` reads the key
`[object Object]`. -/
theorem analyzeProject_root_manifest (parse : Str → Option JsVal) (name : Str) (files : Files)
    (hroot : (List.lookup "package.json".toList files).isSome = true)
    (hobj : List.lookup "[object Object]".toList files = none) :
    analyzeProject parse { name := name, contents := some files } = none := by
  have hm : readManifest parse files = .error .typeError := by
    cases h : List.lookup "package.json".toList files with
    | none => rw [h] at hroot; cases hroot
    | some e =>
      have hf : findPackageFile files = .entryObject e := by
        simp only [findPackageFile, h]
      simp only [readManifest, hf, PackageFile.truthy, PackageFile.toPropertyKey, hobj, if_true]
  simp only [analyzeProject, analyzeProjectTry]
  cases buildFileTree files with
  | error e => rfl
  | ok tree => simp only [hm]

/-- C3 (the code at the failing input): for the archive whose only entry is the
root-level file `package.json` holding the manifest of the scenario, `analyzeProject`
returns `null`, whatever `JSON.parse` is; `detectTechStack` on the parsed manifest is
`["React", "Express.js"]`, and the same manifest one folder down is analysed with that
tech stack. -/
theorem analyzeProject_root_manifest_returns_null :
    (∀ parse : Str → Option JsVal,
      analyzeProject parse
        { name := "project.zip".toList
          contents := some [("package.json".toList, { dir := false, text := scenarioManifestText })] }
        = none) ∧
    detectTechStack scenarioManifest = .ok ["React".toList, "Express.js".toList] ∧
    (∀ parse : Str → Option JsVal, parse scenarioManifestText = some scenarioManifest →
      (analyzeProject parse
        { name := "project.zip".toList
          contents := some [("app/package.json".toList,
            { dir := false, text := scenarioManifestText })] }).map (fun data => data.techStack)
        = some ["React".toList, "Express.js".toList]) := by
  refine ⟨?_, rfl, ?_⟩
  · intro parse
    exact analyzeProject_root_manifest parse _ _ rfl rfl
  · intro parse hparse
    have hm : readManifest parse [("app/package.json".toList,
        { dir := false, text := scenarioManifestText })] =
        .ok (["React".toList, "Express.js".toList], some scenarioManifest) := by
      have hf : findPackageFile [("app/package.json".toList,
          ({ dir := false, text := scenarioManifestText } : ZipEntry))] =
          .key "app/package.json".toList := rfl
      have hl : List.lookup "app/package.json".toList [("app/package.json".toList,
          ({ dir := false, text := scenarioManifestText } : ZipEntry))] =
          some { dir := false, text := scenarioManifestText } := rfl
      have hd : detectTechStack scenarioManifest = .ok ["React".toList, "Express.js".toList] := rfl
      simp only [readManifest, hf, PackageFile.truthy, PackageFile.toPropertyKey, hl, hparse, hd]
      rfl
    have hb : ∃ tree, buildFileTree [("app/package.json".toList,
        ({ dir := false, text := scenarioManifestText } : ZipEntry))] = .ok tree := ⟨_, rfl⟩
    obtain ⟨tree, hb⟩ := hb
    have hs : generateSetupSteps (some scenarioManifest) = .ok ["npm install".toList] := rfl
    simp only [analyzeProject, analyzeProjectTry, hb, hm, hs, Option.map_some']

/-! ## detectTechStack: lemmas -/

theorem lookup_setProp (k key : Str) (val : JsVal) (l : List (Str × JsVal)) :
    List.lookup k (setProp key val l) = if k = key then some val else List.lookup k l := by
  induction l with
  | nil =>
    by_cases h : k = key
    · simp [setProp, List.lookup, h]
    · have hb : (k == key) = false := beq_eq_false_iff_ne.mpr h
      simp [setProp, List.lookup, h, hb]
  | cons p rest ih =>
    obtain ⟨k', v'⟩ := p
    unfold setProp
    by_cases h1 : k' = key
    · subst h1
      by_cases h2 : k = k'
      · simp [List.lookup, h2]
      · have hb : (k == k') = false := beq_eq_false_iff_ne.mpr h2
        simp [List.lookup, h2, hb]
    · by_cases h2 : k = k'
      · subst h2
        simp [List.lookup, h1]
      · have hb : (k == k') = false := beq_eq_false_iff_ne.mpr h2
        simp only [h1, if_false, List.lookup_cons, hb, ih]

/-- Assigning the properties of `l` in turn: a later assignment wins, and keys `l`
does not have keep the value of the target. -/
theorem lookup_foldl_setProp (k : Str) (l t : List (Str × JsVal)) :
    List.lookup k (l.foldl (fun acc kv => setProp kv.1 kv.2 acc) t) =
      (List.lookup k l.reverse).or (List.lookup k t) := by
  induction l generalizing t with
  | nil => simp
  | cons p rest ih =>
    obtain ⟨k', v'⟩ := p
    rw [List.foldl_cons, ih, List.reverse_cons, List.lookup_append, lookup_setProp]
    by_cases h : k = k'
    · subst h
      cases List.lookup k rest.reverse <;> simp [List.lookup]
    · have hb : (k == k') = false := beq_eq_false_iff_ne.mpr h
      cases List.lookup k rest.reverse <;> simp [List.lookup, h, hb]

/-- What `deps[name]` reads from the merged object. -/
theorem get_merged (d e : JsVal) (name : Str) :
    (JsVal.obj (spreadInto (spreadInto [] d) e)).get name = mergedValue d e name := by
  simp only [JsVal.get, spreadInto, mergedValue, propOf, lookup_foldl_setProp, List.lookup_nil,
    Option.or_none]

theorem ruleLabels_nodup : ruleLabels.Nodup := by decide

theorem detectTechStack_eq_foldl (pj : JsVal) (h1 : pj ≠ .undefined) (h2 : pj ≠ .null) :
    detectTechStack pj = .ok ((ruleHits (.obj (spreadInto (spreadInto []
      (pj.get "dependencies".toList)) (pj.get "devDependencies".toList)))).foldl
        (fun st r => if r.1 then setAdd st r.2 else st) []) := by
  cases pj with
  | undefined => exact absurd rfl h1
  | null => exact absurd rfl h2
  | bool b => rfl
  | num q => rfl
  | str s => rfl
  | arr items => rfl
  | obj props => rfl

/-- Adding labels that are pairwise distinct and not yet present appends them. -/
theorem foldl_setAdd (rs : List (Bool × Str)) (stack : List Str)
    (hnd : (rs.map Prod.snd).Nodup) (hdis : ∀ l ∈ rs.map Prod.snd, l ∉ stack) :
    rs.foldl (fun st r => if r.1 then setAdd st r.2 else st) stack =
      stack ++ (rs.filter (fun r => r.1)).map Prod.snd := by
  induction rs generalizing stack with
  | nil => simp
  | cons r rest ih =>
    obtain ⟨b, l⟩ := r
    simp only [List.map_cons, List.nodup_cons] at hnd
    have hl : l ∉ stack := hdis l (by simp)
    have hrest : ∀ l' ∈ rest.map Prod.snd, l' ∉ stack := fun l' hl' => hdis l' (by simp [hl'])
    rw [List.foldl_cons]
    cases b with
    | false =>
      simp only [Bool.false_eq_true, if_false]
      rw [ih stack hnd.2 hrest]
      simp
    | true =>
      have hadd : setAdd stack l = stack ++ [l] := by
        simp [setAdd, hl]
      simp only [if_true, hadd]
      rw [ih (stack ++ [l]) hnd.2 (by
        intro l' hl'
        simp only [List.mem_append, List.mem_singleton, not_or]
        exact ⟨hrest l' hl', fun h => hnd.1 (h ▸ hl')⟩)]
      simp

theorem ruleHits_eq (deps : JsVal) :
    ruleHits deps = techRules.map (fun r => (r.1.any (fun n => (deps.get n).truthy), r.2)) := by
  simp only [ruleHits, techRules, List.map_cons, List.map_nil, List.any_cons, List.any_nil,
    Bool.or_false]

/-- The labels `detectTechStack` returns: those of the rules one of whose package
names has a truthy value in the merged mapping, in rule order. -/
theorem detectTechStack_eq (pj : JsVal) (h1 : pj ≠ .undefined) (h2 : pj ≠ .null) :
    detectTechStack pj = .ok ((techRules.filter (fun r => r.1.any (fun n =>
      (mergedValue (pj.get "dependencies".toList) (pj.get "devDependencies".toList) n).truthy))).map
        Prod.snd) := by
  rw [detectTechStack_eq_foldl pj h1 h2, foldl_setAdd _ _ (by
    rw [ruleHits_eq, List.map_map]
    exact ruleLabels_nodup) (by simp)]
  rw [ruleHits_eq, List.nil_append, List.filter_map, List.map_map]
  have hf : ((fun r : Bool × Str => r.1) ∘ fun r : List Str × Str =>
      (r.1.any fun n => ((JsVal.obj (spreadInto (spreadInto [] (pj.get "dependencies".toList))
        (pj.get "devDependencies".toList))).get n).truthy, r.2)) =
      fun r => r.1.any fun n => (mergedValue (pj.get "dependencies".toList)
        (pj.get "devDependencies".toList) n).truthy := by
    funext r
    simp only [Function.comp, get_merged]
  rw [hf]
  rfl

/-- In a mapping with distinct keys, the value under a key is its one binding. -/
theorem lookup_of_mem_nodup (l : List (Str × JsVal)) (k : Str) (v : JsVal)
    (hnd : (l.map Prod.fst).Nodup) (hmem : (k, v) ∈ l) : List.lookup k l = some v := by
  induction l with
  | nil => cases hmem
  | cons p rest ih =>
    obtain ⟨k', v'⟩ := p
    simp only [List.map_cons, List.nodup_cons] at hnd
    rcases List.mem_cons.mp hmem with h | h
    · cases h
      simp
    · have hne : k ≠ k' := by
        intro hk
        apply hnd.1
        rw [← hk]
        exact List.mem_map.mpr ⟨(k, v), h, rfl⟩
      rw [List.lookup_cons, beq_eq_false_iff_ne.mpr hne]
      exact ih hnd.2 h

theorem mem_of_lookup (l : List (Str × JsVal)) (k : Str) (v : JsVal)
    (h : List.lookup k l = some v) : (k, v) ∈ l := by
  induction l with
  | nil => simp at h
  | cons p rest ih =>
    obtain ⟨k', v'⟩ := p
    rw [List.lookup_cons] at h
    by_cases hk : k = k'
    · subst hk
      simp only [beq_self_eq_true, Option.some.injEq] at h
      subst h
      simp
    · rw [beq_eq_false_iff_ne.mpr hk] at h
      exact List.mem_cons_of_mem _ (ih h)

/-- With distinct keys the order of the keys does not change what is read. -/
theorem lookup_perm (l₁ l₂ : List (Str × JsVal)) (k : Str) (hp : l₁.Perm l₂)
    (hnd : (l₁.map Prod.fst).Nodup) : List.lookup k l₁ = List.lookup k l₂ := by
  have hnd₂ : (l₂.map Prod.fst).Nodup := (hp.map Prod.fst).nodup_iff.mp hnd
  cases h₁ : List.lookup k l₁ with
  | some v =>
    exact (lookup_of_mem_nodup l₂ k v hnd₂ (hp.subset (mem_of_lookup l₁ k v h₁))).symm
  | none =>
    cases h₂ : List.lookup k l₂ with
    | none => rfl
    | some v =>
      have := lookup_of_mem_nodup l₁ k v hnd (hp.symm.subset (mem_of_lookup l₂ k v h₂))
      rw [h₁] at this
      cases this

theorem propOf_perm (l₁ l₂ : List (Str × JsVal)) (k : Str) (hp : l₁.Perm l₂)
    (hnd : (l₁.map Prod.fst).Nodup) : propOf (.obj l₁) k = propOf (.obj l₂) k := by
  simp only [propOf, ownProps]
  apply lookup_perm
  · exact (List.reverse_perm l₁).trans (hp.trans (List.reverse_perm l₂).symm)
  · rw [List.map_reverse]
    exact List.nodup_reverse.mpr hnd

theorem propOf_of_mem (l : List (Str × JsVal)) (k : Str) (v : JsVal)
    (hnd : (l.map Prod.fst).Nodup) (hmem : (k, v) ∈ l) : propOf (.obj l) k = some v := by
  simp only [propOf, ownProps]
  apply lookup_of_mem_nodup
  · rw [List.map_reverse]
    exact List.nodup_reverse.mpr hnd
  · exact List.mem_reverse.mpr hmem

/-- Assigning under `key` leaves the bindings of the other keys as they are. -/
theorem lookup_reverse_setProp (k key : Str) (val : JsVal) (l : List (Str × JsVal))
    (h : k ≠ key) : List.lookup k (setProp key val l).reverse = List.lookup k l.reverse := by
  have hb : (k == key) = false := beq_eq_false_iff_ne.mpr h
  induction l with
  | nil => simp [setProp, List.lookup, hb]
  | cons p rest ih =>
    obtain ⟨k', v'⟩ := p
    unfold setProp
    by_cases h1 : k' = key
    · subst h1
      simp [List.lookup_append, List.lookup, hb]
    · simp only [h1, if_false, List.reverse_cons, List.lookup_append, ih]

theorem manifest_get_dependencies (d e rest : List (Str × JsVal)) :
    (manifest d e rest).get "dependencies".toList = .obj d := rfl

theorem manifest_get_devDependencies (d e rest : List (Str × JsVal)) :
    (manifest d e rest).get "devDependencies".toList = .obj e := rfl

theorem manifest_ne (d e rest : List (Str × JsVal)) :
    manifest d e rest ≠ .undefined ∧ manifest d e rest ≠ .null :=
  ⟨fun h => (by cases h), fun h => (by cases h)⟩

/-- The result on a manifest, by the rule table. -/
theorem detectTechStack_manifest (d e rest : List (Str × JsVal)) :
    detectTechStack (manifest d e rest) = .ok ((techRules.filter (fun r => r.1.any (fun n =>
      (mergedValue (.obj d) (.obj e) n).truthy))).map Prod.snd) := by
  rw [detectTechStack_eq _ (manifest_ne d e rest).1 (manifest_ne d e rest).2,
    manifest_get_dependencies, manifest_get_devDependencies]

/-! ## detectTechStack: theorems -/

/-- C4 (as stated, refuted): with `react` a key of both mappings, `18.0.0` in
`dependencies` and the empty string in `devDependencies`, the merged mapping holds the
`devDependencies` value and React is not detected, although the `dependencies` value
alone detects it. -/
theorem detectTechStack_dev_entry_overrides :
    (JsVal.obj (spreadInto (spreadInto [] (.obj [("react".toList, .str "18.0.0".toList)]))
      (.obj [("react".toList, .str [])]))).get "react".toList = .str [] ∧
    detectTechStack (manifest [("react".toList, .str "18.0.0".toList)]
      [("react".toList, .str [])] []) = .ok [] ∧
    detectTechStack (manifest [("react".toList, .str "18.0.0".toList)] [] []) =
      .ok ["React".toList] :=
  ⟨rfl, rfl, rfl⟩

/-- C4 (amended): when a package name is a key of `devDependencies`, in particular
when it is a key of both mappings, the value from `devDependencies` is the one the
merged mapping holds and the one used for detection: whatever value `dependencies`
has under that name, the result is the same. -/
theorem detectTechStack_dev_value_used (d e rest : List (Str × JsVal)) (k : Str)
    (ve vd : JsVal) (hnd : (e.map Prod.fst).Nodup) (hk : (k, ve) ∈ e) :
    (JsVal.obj (spreadInto (spreadInto [] (.obj d)) (.obj e))).get k = ve ∧
    detectTechStack (manifest (setProp k vd d) e rest) = detectTechStack (manifest d e rest) := by
  have hpe : propOf (.obj e) k = some ve := propOf_of_mem e k ve hnd hk
  constructor
  · rw [get_merged]
    simp [mergedValue, hpe]
  · rw [detectTechStack_manifest, detectTechStack_manifest]
    have hv : ∀ n, mergedValue (.obj (setProp k vd d)) (.obj e) n = mergedValue (.obj d) (.obj e) n := by
      intro n
      by_cases hn : n = k
      · subst hn
        simp [mergedValue, hpe]
      · simp only [mergedValue, propOf, ownProps, lookup_reverse_setProp n k vd d hn]
    simp only [hv]

theorem detectTechStack_dev_value_used_witness :
    ([("react".toList, JsVal.str [])].map Prod.fst).Nodup ∧
    ("react".toList, JsVal.str []) ∈ [("react".toList, JsVal.str [])] ∧
    detectTechStack (manifest (setProp "react".toList (.str "17.0.0".toList)
        [("react".toList, .str "18.0.0".toList)]) [("react".toList, .str [])] []) =
      detectTechStack (manifest [("react".toList, .str "18.0.0".toList)]
        [("react".toList, .str [])] []) :=
  ⟨by simp, by simp,
    (detectTechStack_dev_value_used [("react".toList, .str "18.0.0".toList)]
      [("react".toList, .str [])] [] "react".toList (.str []) (.str "17.0.0".toList)
      (by simp) (by simp)).2⟩

/-- C5 (as stated, refuted): `react` is a key of `dependencies`, with the empty
version string, and `React` is not in the result. -/
theorem detectTechStack_empty_version_not_detected :
    "react".toList ∈ [("react".toList, JsVal.str [])].map Prod.fst ∧
    detectTechStack (manifest [("react".toList, .str [])] [] []) = .ok [] :=
  ⟨by simp, rfl⟩

/-- C5 (amended): for every manifest value other than `null` and `undefined`,
`detectTechStack` returns, and a label is in its result if and only if at least one
of the package names mapped to that label has a truthy value in the merge of
`dependencies` and `devDependencies` in which `devDependencies` takes precedence; a
version string is truthy when it is not empty. Keys are matched exactly. -/
theorem detectTechStack_label_iff (pj : JsVal) (h1 : pj ≠ .undefined) (h2 : pj ≠ .null) :
    ∃ out, detectTechStack pj = .ok out ∧
      (∀ label, label ∈ out ↔
        ∃ r ∈ techRules, r.2 = label ∧ ∃ name ∈ r.1,
          (mergedValue (pj.get "dependencies".toList) (pj.get "devDependencies".toList)
            name).truthy = true) ∧
      (∀ version : Str, (JsVal.str version).truthy = true ↔ version ≠ []) := by
  refine ⟨_, detectTechStack_eq pj h1 h2, ?_, ?_⟩
  · intro label
    simp only [List.mem_map, List.mem_filter, List.any_eq_true]
    constructor
    · rintro ⟨r, ⟨hr, n, hn, ht⟩, rfl⟩
      exact ⟨r, hr, rfl, n, hn, ht⟩
    · rintro ⟨r, hr, rfl, n, hn, ht⟩
      exact ⟨r, ⟨hr, n, hn, ht⟩, rfl⟩
  · intro version
    simp [JsVal.truthy]

theorem detectTechStack_label_iff_witness :
    manifest [("react".toList, .str "18.0.0".toList), ("express".toList, .str "4.0.0".toList)]
      [] [] ≠ .undefined ∧
    manifest [("react".toList, .str "18.0.0".toList), ("express".toList, .str "4.0.0".toList)]
      [] [] ≠ .null ∧
    ∃ out, detectTechStack (manifest [("react".toList, .str "18.0.0".toList),
        ("express".toList, .str "4.0.0".toList)] [] []) = .ok out ∧
      (∀ label, label ∈ out ↔
        ∃ r ∈ techRules, r.2 = label ∧ ∃ name ∈ r.1,
          (mergedValue ((manifest [("react".toList, .str "18.0.0".toList),
              ("express".toList, .str "4.0.0".toList)] [] []).get "dependencies".toList)
            ((manifest [("react".toList, .str "18.0.0".toList),
              ("express".toList, .str "4.0.0".toList)] [] []).get "devDependencies".toList)
            name).truthy = true) ∧
      (∀ version : Str, (JsVal.str version).truthy = true ↔ version ≠ []) :=
  ⟨(manifest_ne _ _ _).1, (manifest_ne _ _ _).2,
    detectTechStack_label_iff _ (manifest_ne _ _ _).1 (manifest_ne _ _ _).2⟩

theorem propOf_sameUpToKeyOrder (v v' : JsVal) (n : Str) (h : SameUpToKeyOrder v v') :
    propOf v' n = propOf v n := by
  rcases h with h | ⟨d, d', hv, hv', hp, hnd⟩
  · rw [h]
  · rw [hv, hv']
    exact (propOf_perm d d' n hp hnd).symm

/-- C6: the result of `detectTechStack` has no duplicate label and is a subsequence
of the fixed rule order, and it is unchanged under any permutation of the key order
of `dependencies` and of `devDependencies`: two manifests of any shape, with either
field present or absent, whose `dependencies` differ at most in key order and whose
`devDependencies` differ at most in key order, give the same result. -/
theorem detectTechStack_order_independent (pj pj' : JsVal)
    (h1 : pj ≠ .undefined) (h2 : pj ≠ .null) (h1' : pj' ≠ .undefined) (h2' : pj' ≠ .null)
    (hd : SameUpToKeyOrder (pj.get "dependencies".toList) (pj'.get "dependencies".toList))
    (he : SameUpToKeyOrder (pj.get "devDependencies".toList)
      (pj'.get "devDependencies".toList)) :
    (∀ q out, detectTechStack q = .ok out →
      out.Nodup ∧
      out.Sublist ["React".toList, "React DOM".toList, "Next.js".toList, "Vue.js".toList,
        "Angular".toList, "Express.js".toList, "MongoDB".toList, "Framer Motion".toList,
        "Tailwind CSS".toList, "TypeScript".toList, "Axios".toList, "React Router".toList]) ∧
    detectTechStack pj' = detectTechStack pj := by
  constructor
  · intro q out hout
    have hsub : out.Sublist ruleLabels := by
      by_cases g1 : q = .undefined
      · subst g1
        cases hout
      by_cases g2 : q = .null
      · subst g2
        cases hout
      rw [detectTechStack_eq q g1 g2] at hout
      cases hout
      exact (List.filter_sublist _).map Prod.snd
    exact ⟨hsub.nodup ruleLabels_nodup, hsub⟩
  · rw [detectTechStack_eq pj h1 h2, detectTechStack_eq pj' h1' h2']
    have hv : ∀ n, mergedValue (pj'.get "dependencies".toList) (pj'.get "devDependencies".toList) n =
        mergedValue (pj.get "dependencies".toList) (pj.get "devDependencies".toList) n := by
      intro n
      simp only [mergedValue, propOf_sameUpToKeyOrder _ _ n hd, propOf_sameUpToKeyOrder _ _ n he]
    simp only [hv]

theorem detectTechStack_order_independent_witness :
    scenarioManifest ≠ .undefined ∧ scenarioManifest ≠ .null ∧
    scenarioManifestSwapped ≠ .undefined ∧ scenarioManifestSwapped ≠ .null ∧
    SameUpToKeyOrder (scenarioManifest.get "dependencies".toList)
      (scenarioManifestSwapped.get "dependencies".toList) ∧
    SameUpToKeyOrder (scenarioManifest.get "devDependencies".toList)
      (scenarioManifestSwapped.get "devDependencies".toList) ∧
    detectTechStack scenarioManifestSwapped = detectTechStack scenarioManifest ∧
    detectTechStack scenarioManifest = .ok ["React".toList, "Express.js".toList] :=
  ⟨fun h => (by cases h), fun h => (by cases h), fun h => (by cases h), fun h => (by cases h),
    Or.inr ⟨_, _, rfl, rfl, List.Perm.swap _ _ _, by decide⟩, Or.inl rfl,
    (detectTechStack_order_independent scenarioManifest scenarioManifestSwapped
      (fun h => (by cases h)) (fun h => (by cases h)) (fun h => (by cases h))
      (fun h => (by cases h))
      (Or.inr ⟨_, _, rfl, rfl, List.Perm.swap _ _ _, by decide⟩) (Or.inl rfl)).2,
    rfl⟩

/-! ## analyzeComponents: theorems -/

/-- C7: `analyzeComponents` returns at most 5 entries, and the `file` of every
returned entry is a key of the mapping whose entry is not a directory and whose full
path contains the substring `component`. -/
theorem analyzeComponents_bounded_sound (files : Files) :
    (analyzeComponents files).length ≤ 5 ∧
    ∀ c ∈ analyzeComponents files,
      ∃ e, (c.file, e) ∈ files ∧ e.dir = false ∧ "component".toList <:+: c.file := by
  rw [analyzeComponents_eq]
  constructor
  · simp only [List.length_map, List.length_take]
    omega
  · intro c hc
    obtain ⟨pe, hpe, rfl⟩ := List.mem_map.mp hc
    have hmem := List.mem_filter.mp (List.mem_of_mem_take hpe)
    obtain ⟨path, e⟩ := pe
    refine ⟨e, hmem.1, ?_, ?_⟩
    · have := hmem.2
      simp only [isComponentEntry, Bool.and_eq_true, Bool.not_eq_true', decide_eq_true_eq] at this
      exact this.1.1
    · have := hmem.2
      simp only [isComponentEntry, Bool.and_eq_true, Bool.not_eq_true', decide_eq_true_eq] at this
      exact this.2

/-- C8: the files of the result of `analyzeComponents` are exactly the first
`min 5 k` of the `k` paths, in the iteration order of the mapping, whose entry is not
a directory and which end in one of `.js .jsx .ts .tsx .vue` and contain `component`;
each result's `file` is `pre ++ name ++ ext` where `ext` is one of the extensions,
`name ++ ext` is the last slash-separated segment, and its `purpose` is `Component: `
followed by `name`. -/
theorem analyzeComponents_first_matches (files : Files) :
    (analyzeComponents files).map (fun c => c.file) =
      ((files.filter isComponentEntry).take (min 5 (files.filter isComponentEntry).length)).map
        Prod.fst ∧
    ∀ c ∈ analyzeComponents files,
      c.purpose = "Component: ".toList ++ c.name ∧
      ∃ ext ∈ componentExtensions, ∃ pre,
        lastSegment c.file = c.name ++ ext ∧ c.file = pre ++ (c.name ++ ext) ∧
        '/' ∉ c.name ++ ext ∧ (pre = [] ∨ ∃ p, pre = p ++ ['/']) := by
  rw [analyzeComponents_eq]
  constructor
  · rw [List.map_map]
    congr 1
    rw [List.take_eq_take]
    simp
  · intro c hc
    obtain ⟨pe, hpe, rfl⟩ := List.mem_map.mp hc
    have hmem := List.mem_filter.mp (List.mem_of_mem_take hpe)
    obtain ⟨path, e⟩ := pe
    have hsel := hmem.2
    simp only [isComponentEntry, Bool.and_eq_true, Bool.not_eq_true', decide_eq_true_eq] at hsel
    obtain ⟨ext, hext, hsuf⟩ := hsel.1.2
    have hlast : ext <:+ lastSegment path :=
      suffix_lastSegment path ext hsuf (slash_not_mem_extension ext hext)
    obtain ⟨ext', hext', hstrip⟩ := componentPatternStrip_spec (lastSegment path) ⟨ext, hext, hlast⟩
    obtain ⟨pre, hp1, hp2, hp3⟩ := lastSegment_spec path
    refine ⟨rfl, ext', hext', pre, ?_, ?_, ?_, hp3⟩
    · exact hstrip
    · show path = pre ++ (componentPatternStrip (lastSegment path) ++ ext')
      rw [← hstrip]
      exact hp1
    · show '/' ∉ componentPatternStrip (lastSegment path) ++ ext'
      rw [← hstrip]
      exact hp2

/-! ## VideoPlayer: theorems -/

/-- The chapter `seekTo` selects for a time that is not negative. -/
theorem seekTo_currentChapter (it : Str → Str) (props : Props) (t : Int) (s : Player)
    (h0 : 0 ≤ t) :
    (seekTo it props t s).currentChapter =
      if t < 25 then 0 else if t < 60 then 1 else if t < 100 then 2 else if t < 135 then 3 else 4 := by
  simp only [seekTo, chapters, findIndexFrom, List.length, List.get?]
  simp
  split_ifs <;> simp_all

/-- Start offset and duration of each chapter. -/
theorem chapters_times (it : Str → Str) (props : Props) (a : Avatar) :
    (chapters it props a).map (fun ch => (ch.time, ch.duration)) =
      [(0, 25), (25, 35), (60, 40), (100, 35), (135, 25)] := rfl

theorem chapters_length (it : Str → Str) (props : Props) (a : Avatar) :
    (chapters it props a).length = 5 := rfl

theorem chapters_get? (it : Str → Str) (props : Props) (a : Avatar) (i : Nat) (ch : Chapter)
    (h : (chapters it props a).get? i = some ch) :
    [((0 : Int), (25 : Int)), (25, 35), (60, 40), (100, 35), (135, 25)].get? i =
      some (ch.time, ch.duration) := by
  rw [← chapters_times it props a, List.get?_eq_getElem?, List.getElem?_map,
    ← List.get?_eq_getElem?, h]
  rfl

/-- C9: for every summary the narration has exactly 5 segments, with durations
25, 35, 40, 35, 25 and titles Introduction, Tech Stack, Structure, Components, Setup;
the first start offset is 0, every later start offset is the previous start offset
plus the previous duration, so the offsets increase strictly, and the total duration
is 160. -/
theorem chapters_schedule (inheritedText : Str → Str) (props : Props) (selectedAvatar : Avatar) :
    (chapters inheritedText props selectedAvatar).length = 5 ∧
    (chapters inheritedText props selectedAvatar).map (fun ch => ch.duration) = [25, 35, 40, 35, 25] ∧
    (chapters inheritedText props selectedAvatar).map (fun ch => ch.title) =
      ["Introduction".toList, "Tech Stack".toList, "Structure".toList, "Components".toList,
       "Setup".toList] ∧
    (chapters inheritedText props selectedAvatar).head?.map (fun ch => ch.time) = some 0 ∧
    List.Chain' (fun x y => y.time = x.time + x.duration ∧ x.time < y.time)
      (chapters inheritedText props selectedAvatar) ∧
    totalDuration (chapters inheritedText props selectedAvatar) = 160 := by
  refine ⟨rfl, rfl, rfl, rfl, ?_, rfl⟩
  have h : List.Chain' (fun x y : Int × Int => y.1 = x.1 + x.2 ∧ x.1 < y.1)
      ((chapters inheritedText props selectedAvatar).map (fun ch => (ch.time, ch.duration))) := by
    rw [chapters_times]
    simp [List.Chain']
  exact (List.chain'_map _).mp h

/-- C10: for an integer `t` with `0 ≤ t ≤ 160`, `seekTo t` sets the current chapter
to the unique chapter `i` with `start i ≤ t < start i + duration i`, the last chapter
also taking `t = 160`; `seekTo 0` gives chapter 0 and `seekTo 159` gives chapter 4;
and `togglePlay` pressed after `seekTo 0` in a paused player starts playing and hands
the script of chapter 0 to `speak`, which utters it unless the player is muted. -/
theorem seekTo_selects_segment (inheritedText : Str → Str) (props : Props) (s : Player) (t : Int)
    (h0 : 0 ≤ t) (h1 : t ≤ 160) :
    (∃ ch, (chapters inheritedText props s.selectedAvatar).get?
          (seekTo inheritedText props t s).currentChapter = some ch ∧
        ch.time ≤ t ∧
        (t < ch.time + ch.duration ∨ ((seekTo inheritedText props t s).currentChapter = 4 ∧ t = 160))) ∧
    (∀ j ch, (chapters inheritedText props s.selectedAvatar).get? j = some ch → ch.time ≤ t →
        (t < ch.time + ch.duration ∨ (j = 4 ∧ t = 160)) →
        j = (seekTo inheritedText props t s).currentChapter) ∧
    (seekTo inheritedText props 0 s).currentChapter = 0 ∧
    (seekTo inheritedText props 159 s).currentChapter = 4 ∧
    (s.isPlaying = false →
      (togglePlay inheritedText props (seekTo inheritedText props 0 s)).isPlaying = true ∧
      (togglePlay inheritedText props (seekTo inheritedText props 0 s)).speech =
        s.speech ++
          (if s.isMuted then []
           else [SpeechEvent.cancel,
                 SpeechEvent.utterLater
                   (scriptAt (chapters inheritedText props s.selectedAvatar) 0)
                   s.selectedAvatar s.volume])) := by
  refine ⟨?_, ?_, ?_, ?_, ?_⟩
  · have hi := seekTo_currentChapter inheritedText props t s h0
    generalize (seekTo inheritedText props t s).currentChapter = i at hi ⊢
    have hlt : i < 5 := by
      rw [hi]
      split_ifs <;> omega
    have hlen : i < (chapters inheritedText props s.selectedAvatar).length := by
      rw [chapters_length]
      exact hlt
    refine ⟨(chapters inheritedText props s.selectedAvatar).get ⟨i, hlen⟩, List.get?_eq_get hlen, ?_⟩
    have key := chapters_get? inheritedText props s.selectedAvatar i _ (List.get?_eq_get hlen)
    generalize (chapters inheritedText props s.selectedAvatar).get ⟨i, hlen⟩ = ch at key ⊢
    interval_cases i <;> simp at key <;> split_ifs at hi <;> omega
  · intro j ch hj hle hlt
    have hi := seekTo_currentChapter inheritedText props t s h0
    generalize (seekTo inheritedText props t s).currentChapter = i at hi ⊢
    have hlen : j < 5 := by
      obtain ⟨h, _⟩ := List.get?_eq_some.mp hj
      rw [chapters_length] at h
      exact h
    have key := chapters_get? inheritedText props s.selectedAvatar j ch hj
    interval_cases j <;> simp at key <;> split_ifs at hi <;> omega
  · rw [seekTo_currentChapter inheritedText props 0 s (le_refl 0)]
    simp
  · rw [seekTo_currentChapter inheritedText props 159 s (by decide)]
    simp
  · intro hp
    have hc : (seekTo inheritedText props 0 s).currentChapter = 0 := by
      rw [seekTo_currentChapter inheritedText props 0 s (le_refl 0)]
      simp
    have hrest : (seekTo inheritedText props 0 s).isPlaying = false ∧
        (seekTo inheritedText props 0 s).speech = s.speech ∧
        (seekTo inheritedText props 0 s).isMuted = s.isMuted ∧
        (seekTo inheritedText props 0 s).selectedAvatar = s.selectedAvatar ∧
        (seekTo inheritedText props 0 s).volume = s.volume := by
      simp only [seekTo]
      split <;> simp [hp]
    obtain ⟨r1, r2, r3, r4, r5⟩ := hrest
    simp only [togglePlay, r1, r2, r3, r4, r5, hc, speak]
    cases s.isMuted <;> simp

theorem seekTo_selects_segment_witness :
    (0 : Int) ≤ 160 ∧ (160 : Int) ≤ 160 ∧
    (seekTo (fun key => key) sampleProps 160 Player.initial).currentChapter = 4 ∧
    (seekTo (fun key => key) sampleProps 0 Player.initial).currentChapter = 0 :=
  ⟨by decide, by decide,
    ((seekTo_selects_segment (fun key => key) sampleProps Player.initial 160 (by decide)
      (by decide)).2.1 4 _ rfl (by decide) (Or.inr ⟨rfl, rfl⟩)).symm,
    (seekTo_selects_segment (fun key => key) sampleProps Player.initial 160 (by decide)
      (by decide)).2.2.1⟩

/-! ## AIChat: theorems -/

theorem includes_eq_decide (s pat : Str) : includes s pat = decide (pat <:+: s) := by
  rw [Bool.eq_iff_iff, includes_iff]
  simp

/-- The chain of `if` statements of `getAIResponse` is the rule table evaluated
first-match-wins. -/
theorem getAIResponse_eq_firstMatch (techStack : List Str) (query : Str) :
    getAIResponse techStack query = firstMatch (chatRules techStack) genericHelp query := by
  simp only [getAIResponse, firstMatch, chatRules, includes_eq_decide, List.find?, List.any_cons,
    List.any_nil, Bool.or_false, runInstructions, genericHelp]
  by_cases h1 : "navbar".toList <:+: query
  · simp only [h1, decide_True, if_true]
  · by_cases h2 : "run".toList <:+: query
    · simp only [h1, h2, decide_True, decide_False, Bool.true_or, if_true, Bool.false_eq_true, if_false]
    · by_cases h3 : "start".toList <:+: query
      · simp only [h1, h2, h3, decide_True, decide_False, Bool.or_true, Bool.false_eq_true, if_true, if_false]
      · by_cases h4 : "app.jsx".toList <:+: query
        · simp only [h1, h2, h3, h4, decide_True, decide_False, Bool.or_self, Bool.false_eq_true, if_true, if_false]
        · by_cases h5 : "folder".toList <:+: query
          · simp only [h1, h2, h3, h4, h5, decide_True, decide_False, Bool.or_self, Bool.true_or, Bool.false_eq_true, if_true, if_false]
          · by_cases h6 : "structure".toList <:+: query
            · simp only [h1, h2, h3, h4, h5, h6, decide_True, decide_False, Bool.or_self, Bool.or_true, Bool.false_eq_true, if_true, if_false]
            · by_cases h7 : "tech stack".toList <:+: query
              · simp only [h1, h2, h3, h4, h5, h6, h7, decide_True, decide_False, Bool.or_self, Bool.true_or, Bool.false_eq_true, if_true, if_false]
              · by_cases h8 : "technologies".toList <:+: query
                · simp only [h1, h2, h3, h4, h5, h6, h7, h8, decide_True, decide_False, Bool.or_self, Bool.or_true, Bool.false_eq_true, if_true, if_false]
                · simp only [h1, h2, h3, h4, h5, h6, h7, h8, decide_False, Bool.or_self, Bool.false_eq_true, if_false]

/-- C18: `getAIResponse` on a lowercased query is the first-match-wins evaluation of
the ordered rule table (navbar; run or start; app.jsx; folder or structure; tech stack
or technologies) with the generic help message as fallback; every query that contains
`run` or `start` and not `navbar` gets the run instructions, which contain
`npm install`, and so does `how do i run this project?`. -/
theorem getAIResponse_first_match_wins (techStack : List Str) :
    (∀ query, getAIResponse techStack query = firstMatch (chatRules techStack) genericHelp query) ∧
    (chatRules techStack).map Prod.fst =
      [["navbar".toList], ["run".toList, "start".toList], ["app.jsx".toList],
       ["folder".toList, "structure".toList], ["tech stack".toList, "technologies".toList]] ∧
    (∀ query, (∀ r ∈ chatRules techStack, ∀ kw ∈ r.1, ¬ kw <:+: query) →
      getAIResponse techStack query = genericHelp) ∧
    (∀ query, ("run".toList <:+: query ∨ "start".toList <:+: query) →
      ¬ "navbar".toList <:+: query → getAIResponse techStack query = runInstructions) ∧
    "npm install".toList <:+: runInstructions ∧
    getAIResponse techStack "how do i run this project?".toList = runInstructions := by
  refine ⟨getAIResponse_eq_firstMatch techStack, rfl, ?_, ?_, by decide, ?_⟩
  · intro query hnone
    rw [getAIResponse_eq_firstMatch, firstMatch]
    have : (chatRules techStack).find? (fun r => r.1.any (fun kw => decide (kw <:+: query))) = none := by
      rw [List.find?_eq_none]
      intro r hr
      simp only [List.any_eq_true, decide_eq_true_eq, not_exists, not_and]
      exact fun kw hkw => hnone r hr kw hkw
    rw [this]
  · intro query hrun hnav
    simp only [getAIResponse, includes_eq_decide, hnav, decide_False, Bool.false_eq_true, if_false,
      runInstructions]
    rcases hrun with h | h
    · simp only [h, decide_True, Bool.true_or, if_true]
    · simp only [h, decide_True, Bool.or_true, if_true]
  · rw [getAIResponse]
    have h1 : includes "how do i run this project?".toList "navbar".toList = false := by decide
    have h2 : includes "how do i run this project?".toList "run".toList = true := by decide
    simp only [h1, h2, Bool.false_eq_true, if_false, Bool.true_or, if_true, runInstructions]

/-! ## VideoPlayer: seek, mute, reset, narration text -/

/-- On an integer time `seekTo t` sets the elapsed time to `t` itself; the result is
`clamp(t, 0, totalDuration)`, and so within `0 .. 160`, exactly when `0 ≤ t ≤ 160`. -/
theorem seekTo_sets_time (inheritedText : Str → Str) (props : Props) (t : Int) (s : Player) :
    (seekTo inheritedText props t s).currentTime = t ∧
    ((seekTo inheritedText props t s).currentTime =
        max 0 (min t (totalDuration (chapters inheritedText props s.selectedAvatar))) ↔
      (0 ≤ t ∧ t ≤ 160)) := by
  have ht : (seekTo inheritedText props t s).currentTime = t := by
    simp only [seekTo]
    split <;> rfl
  have htot : totalDuration (chapters inheritedText props s.selectedAvatar) = 160 := rfl
  refine ⟨ht, ?_⟩
  rw [ht, htot]
  constructor
  · intro h
    omega
  · intro h
    omega

/-- C13 (the code at a failing input): after play and then the reset button the
player is not playing and its interval timer is still alive; after a second play two
interval timers are alive. Pressing `togglePlay` while playing stops the timer. -/
theorem reset_leaves_timer_running (inheritedText : Str → Str) (props : Props) :
    (run inheritedText props Player.initial [.togglePlay, .reset]).isPlaying = false ∧
    ((run inheritedText props Player.initial [.togglePlay, .reset]).timers.map (fun t => t.id)) = [1] ∧
    ((run inheritedText props Player.initial [.togglePlay, .reset, .togglePlay]).timers.map
      (fun t => t.id)) = [1, 2] ∧
    (run inheritedText props Player.initial [.togglePlay, .togglePlay]).timers = [] :=
  ⟨rfl, rfl, rfl, rfl⟩

/-- C15 (the code at a failing input): `toggleMute` flips `isMuted` and leaves
`isPlaying`, the elapsed time, the chapter and the timers as they are, and muting
cancels speech; but unmuting issues no speech request at all, also while playing,
because `speak` still sees `isMuted` as true: a player muted, started and unmuted has
only the `cancel` of the muting in its speech log. -/
theorem toggleMute_unmute_is_silent (inheritedText : Str → Str) (props : Props) :
    (∀ s : Player,
      (toggleMute inheritedText props s).isMuted = !s.isMuted ∧
      (toggleMute inheritedText props s).isPlaying = s.isPlaying ∧
      (toggleMute inheritedText props s).currentTime = s.currentTime ∧
      (toggleMute inheritedText props s).currentChapter = s.currentChapter ∧
      (toggleMute inheritedText props s).timers = s.timers ∧
      (toggleMute inheritedText props s).intervalRef = s.intervalRef ∧
      (s.isMuted = false → (toggleMute inheritedText props s).speech = s.speech ++ [.cancel]) ∧
      (s.isMuted = true → (toggleMute inheritedText props s).speech = s.speech)) ∧
    (run inheritedText props Player.initial [.toggleMute, .togglePlay]).isPlaying = true ∧
    (run inheritedText props Player.initial [.toggleMute, .togglePlay]).isMuted = true ∧
    (run inheritedText props Player.initial [.toggleMute, .togglePlay, .toggleMute]).isMuted = false ∧
    (run inheritedText props Player.initial [.toggleMute, .togglePlay, .toggleMute]).speech =
      [.cancel] := by
  refine ⟨?_, rfl, rfl, rfl, rfl⟩
  intro s
  refine ⟨rfl, rfl, rfl, rfl, rfl, rfl, ?_, ?_⟩
  · intro h
    simp only [toggleMute, h, Bool.not_false, if_true]
  · intro h
    simp only [toggleMute, h, speak, Bool.not_true, Bool.false_eq_true, if_false, ite_self,
      List.append_nil]

/-- C16 (as stated, refuted): for the same summary the segment sequence with the
avatar Jonas differs from the one with the avatar Sarah. -/
theorem chapters_depend_on_avatar :
    chapters (fun key => key) sampleProps .jonas ≠ chapters (fun key => key) sampleProps .sarah := by
  decide

/-- C16 (amended): the narration segments are determined by the summary together
with the selected avatar. The Introduction script names the selected avatar; the
other four segments, and the start offsets, durations, titles and icons of all five,
are the same for both avatars; and the segments of a player state do not change with
its volume, mute flag, play flag, elapsed time or chapter. -/
theorem chapters_determined_by_summary_and_avatar (inheritedText : Str → Str) (props : Props)
    (a b : Avatar) :
    (chapters inheritedText props a).drop 1 = (chapters inheritedText props b).drop 1 ∧
    (chapters inheritedText props a).map (fun ch => (ch.time, ch.duration, ch.title, ch.icon)) =
      (chapters inheritedText props b).map (fun ch => (ch.time, ch.duration, ch.title, ch.icon)) ∧
    scriptAt (chapters inheritedText props a) 0 =
      "Hi! I'm ".toList ++ a.displayName ++ ". Let me explain ".toList ++ props.projectName ++
        " to you. ".toList ++ props.description ∧
    (∀ (s : Player) (volume : ℚ) (isMuted isPlaying : Bool) (currentTime : Int) (currentChapter : Nat),
      chapters inheritedText props
        ({ s with volume := volume, isMuted := isMuted, isPlaying := isPlaying,
                  currentTime := currentTime, currentChapter := currentChapter }).selectedAvatar =
      chapters inheritedText props s.selectedAvatar) :=
  ⟨rfl, rfl, rfl, fun _ _ _ _ _ _ => rfl⟩

/-- C17: with `components` empty or absent the Components script is the generic
sentence, and with `techStack` empty or absent the Tech Stack script is the generic
sentence; otherwise the Components script lists the names of the first three
components in order, the Tech Stack script lists the first three technologies in
order followed by the explanation of the first one, and neither script changes when
the list is cut down to its first three elements. -/
theorem chapters_fallback_and_first_three (inheritedText : Str → Str) (props : Props)
    (a : Avatar) :
    ((props.components = none ∨ props.components = some []) →
      scriptAt (chapters inheritedText props a) 3 =
        "The app is built with modular, reusable components.".toList) ∧
    ((props.techStack = none ∨ props.techStack = some []) →
      scriptAt (chapters inheritedText props a) 1 =
        "This project uses modern web technologies.".toList) ∧
    (∀ cs, props.components = some cs → cs ≠ [] →
      scriptAt (chapters inheritedText props a) 3 =
        "Key components include ".toList ++ joinWith ", ".toList ((cs.take 3).map (fun c => c.name)) ++
          ". Each handles a specific part of the UI.".toList ∧
      scriptAt (chapters inheritedText { props with components := some (cs.take 3) } a) 3 =
        scriptAt (chapters inheritedText props a) 3) ∧
    (∀ ts, props.techStack = some ts → ts ≠ [] →
      scriptAt (chapters inheritedText props a) 1 =
        "This project uses ".toList ++ joinWith ", ".toList (ts.take 3) ++ ". ".toList ++
          getTechExplanation inheritedText (some (ts.take 1)) ∧
      scriptAt (chapters inheritedText { props with techStack := some (ts.take 3) } a) 1 =
        scriptAt (chapters inheritedText props a) 1) := by
  refine ⟨?_, ?_, ?_, ?_⟩
  · rintro (h | h) <;> simp only [scriptAt, chapters, List.get?, Option.elim, h]
  · rintro (h | h) <;> simp only [scriptAt, chapters, List.get?, Option.elim, h]
  · intro cs h hne
    cases cs with
    | nil => exact absurd rfl hne
    | cons c rest =>
      constructor
      · simp only [scriptAt, chapters, List.get?, Option.elim, h]
      · simp only [scriptAt, chapters, List.get?, Option.elim, h, List.take_succ_cons,
          List.take_take]
        rfl
  · intro ts h hne
    cases ts with
    | nil => exact absurd rfl hne
    | cons t rest =>
      constructor
      · simp only [scriptAt, chapters, List.get?, Option.elim, h]
        rfl
      · simp only [scriptAt, chapters, List.get?, Option.elim, h, List.take_succ_cons,
          List.take_take]
        rfl

/-! ## VideoPlayer: playback -/

/-- The chapter the interval callback of a timer created in chapter 0 finds: from
second 25 on, always chapter 1. -/
theorem tick_nextChapter_zero (it : Str → Str) (props : Props) (a : Avatar) (newTime : Int) :
    findIndexFrom (fun (ch : Chapter) i => decide (i > 0) && decide (newTime ≥ ch.time))
      (chapters it props a) 0 = if newTime < 25 then none else some 1 := by
  simp only [chapters, findIndexFrom]
  simp
  split_ifs <;> first | rfl | omega

/-- One tick of a timer created in chapter 0, before the end. -/
theorem tick_of_chapter_zero (it : Str → Str) (props : Props) (t : Timer) (s : Player)
    (ht : t.currentChapter = 0) (hlt : s.currentTime + 1 < 160) :
    tick it props t s =
      { s with
        currentTime := s.currentTime + 1
        currentChapter := if s.currentTime + 1 < 25 then s.currentChapter else 1
        speech := s.speech ++
          if s.currentTime + 1 < 25 then []
          else speak t.isMuted t.selectedAvatar t.volume
            (scriptAt (chapters it props t.selectedAvatar) 1) } := by
  have htot : totalDuration (chapters it props t.selectedAvatar) = 160 := rfl
  simp only [tick, ht, tick_nextChapter_zero, htot]
  have hge : ¬ (s.currentTime + 1 ≥ 160) := by omega
  simp only [hge, if_false]
  by_cases h25 : s.currentTime + 1 < 25
  · simp only [h25, if_true, List.append_nil]
  · simp only [h25, if_false]

/-- The tick that reaches the total duration, for a timer created in chapter 0. -/
theorem tick_of_chapter_zero_end (it : Str → Str) (props : Props) (t : Timer) (s : Player)
    (ht : t.currentChapter = 0) (h : s.currentTime + 1 = 160) :
    tick it props t s =
      { s with
        isPlaying := false
        currentTime := 0
        currentChapter := 0
        timers := clearInterval s.intervalRef s.timers
        speech := s.speech ++
          speak t.isMuted t.selectedAvatar t.volume
            (scriptAt (chapters it props t.selectedAvatar) 1) ++ [.cancel] } := by
  have htot : totalDuration (chapters it props t.selectedAvatar) = 160 := rfl
  simp only [tick, ht, tick_nextChapter_zero, htot, h]
  simp

theorem playFor_succ (it : Str → Str) (props : Props) (n : Nat) :
    playFor it props (n + 1) = step it props (playFor it props n) (.tick 1) := by
  simp only [playFor, run, List.replicate_succ', ← List.cons_append, List.foldl_append,
    List.foldl_cons, List.foldl_nil]

/-- The state of uninterrupted playback after `n < 160` ticks. -/
theorem playFor_state (it : Str → Str) (props : Props) (n : Nat) (hn : n < 160) :
    (playFor it props n).currentTime = n ∧
    (playFor it props n).currentChapter = (if n < 25 then 0 else 1) ∧
    (playFor it props n).isPlaying = true ∧
    (playFor it props n).timers = [firstTimer] ∧
    (playFor it props n).intervalRef = some 1 := by
  induction n with
  | zero => exact ⟨rfl, rfl, rfl, rfl, rfl⟩
  | succ k ih =>
    obtain ⟨h1, h2, h3, h4, h5⟩ := ih (by omega)
    have hstep : playFor it props (k + 1) = tick it props firstTimer (playFor it props k) := by
      rw [playFor_succ]
      simp only [step, h4]
      rfl
    have hlt : (playFor it props k).currentTime + 1 < 160 := by
      rw [h1]
      omega
    rw [hstep, tick_of_chapter_zero it props firstTimer _ rfl hlt]
    refine ⟨?_, ?_, h3, h4, h5⟩
    · simp only [h1]
      push_cast
      rfl
    · simp only [h1, h2]
      split_ifs <;> omega

/-- C12 (the code at a failing input): in uninterrupted playback from the initial
state the elapsed time after `n < 160` ticks is `n`, but the chapter is 0 before second
25 and 1 from then on, because the timer callback keeps comparing with the chapter of
the render that created it: after 60 ticks the chapter is 1 although second 60 starts
chapter 2, and tick 26, which crosses no boundary, requests the speech of chapter 1
again. -/
theorem playback_chapter_stuck_at_one (inheritedText : Str → Str) (props : Props) :
    (∀ n, n < 160 →
      (playFor inheritedText props n).currentTime = n ∧
      (playFor inheritedText props n).currentChapter = (if n < 25 then 0 else 1)) ∧
    (playFor inheritedText props 60).currentChapter = 1 ∧
    ((chapters inheritedText props .jonas).get? 2).map (fun ch => (ch.time, ch.duration)) =
      some (60, 40) ∧
    (playFor inheritedText props 26).speech =
      (playFor inheritedText props 25).speech ++
        [.cancel, .utterLater (scriptAt (chapters inheritedText props .jonas) 1) .jonas 1] := by
  refine ⟨fun n hn => ⟨(playFor_state inheritedText props n hn).1,
    (playFor_state inheritedText props n hn).2.1⟩, ?_, rfl, ?_⟩
  · rw [(playFor_state inheritedText props 60 (by decide)).2.1]
    rfl
  · obtain ⟨h1, _, _, h4, _⟩ := playFor_state inheritedText props 25 (by decide)
    have hstep : playFor inheritedText props 26 =
        tick inheritedText props firstTimer (playFor inheritedText props 25) := by
      rw [playFor_succ]
      simp only [step, h4]
      rfl
    have hlt : (playFor inheritedText props 25).currentTime + 1 < 160 := by
      rw [h1]
      decide
    rw [hstep, tick_of_chapter_zero inheritedText props firstTimer _ rfl hlt]
    simp only [h1]
    rfl

/-- C14 (the code at a failing input): the tick that brings uninterrupted playback
from the initial state to 160 stops playing, clears the timer and resets the elapsed
time and the chapter to 0, but before its `cancel()` it calls `speak` for chapter 1,
whose utterance starts 100 ms later, after the cancel. -/
theorem playback_end_utters_after_cancel (inheritedText : Str → Str) (props : Props) :
    (playFor inheritedText props 160).isPlaying = false ∧
    (playFor inheritedText props 160).timers = [] ∧
    (playFor inheritedText props 160).currentTime = 0 ∧
    (playFor inheritedText props 160).currentChapter = 0 ∧
    (playFor inheritedText props 160).speech =
      (playFor inheritedText props 159).speech ++
        [.cancel, .utterLater (scriptAt (chapters inheritedText props .jonas) 1) .jonas 1,
         .cancel] ∧
    utteredAfter [.cancel,
        .utterLater (scriptAt (chapters inheritedText props .jonas) 1) .jonas 1, .cancel] =
      [scriptAt (chapters inheritedText props .jonas) 1] := by
  obtain ⟨h1, _, _, h4, h5⟩ := playFor_state inheritedText props 159 (by decide)
  have hstep : playFor inheritedText props 160 =
      tick inheritedText props firstTimer (playFor inheritedText props 159) := by
    rw [playFor_succ]
    simp only [step, h4]
    rfl
  have hend : (playFor inheritedText props 159).currentTime + 1 = 160 := by
    rw [h1]
    decide
  rw [hstep, tick_of_chapter_zero_end inheritedText props firstTimer _ rfl hend]
  refine ⟨rfl, ?_, rfl, rfl, ?_, rfl⟩
  · simp only [h4, h5]
    rfl
  · simp only [List.append_assoc]
    rfl

/-! ## buildFileTree: the store invariant -/

theorem own_cons (k k' : Str) (n : FileNode) (l : Lookup) :
    Lookup.own ((k', n) :: l) k = if k = k' then some n else Lookup.own l k := by
  simp only [Lookup.own, List.lookup_cons]
  by_cases h : k = k'
  · simp [h]
  · simp [h, beq_eq_false_iff_ne.mpr h]

theorem own_isSome_iff (l : Lookup) (k : Str) :
    (Lookup.own l k).isSome = true ↔ k ∈ l.map Prod.fst := by
  induction l with
  | nil => simp [Lookup.own]
  | cons p rest ih =>
    obtain ⟨k', n⟩ := p
    rw [own_cons]
    by_cases h : k = k'
    · simp only [h, if_true, Option.isSome_some, List.map_cons, List.mem_cons, true_or]
    · simp only [h, if_false, ih, List.map_cons, List.mem_cons, false_or]

theorem own_eq_none_iff (l : Lookup) (k : Str) :
    Lookup.own l k = none ↔ k ∉ l.map Prod.fst := by
  rw [← own_isSome_iff]
  cases Lookup.own l k <;> simp

theorem mem_of_own (l : Lookup) (k : Str) (n : FileNode) (h : Lookup.own l k = some n) :
    (k, n) ∈ l := by
  induction l with
  | nil => simp [Lookup.own] at h
  | cons p rest ih =>
    obtain ⟨k', n'⟩ := p
    rw [own_cons] at h
    by_cases hk : k = k'
    · subst hk
      simp only [if_true, Option.some.injEq] at h
      subst h
      exact List.mem_cons_self _ _
    · simp only [hk, if_false] at h
      exact List.mem_cons_of_mem _ (ih h)

theorem own_of_mem (l : Lookup) (k : Str) (n : FileNode) (hnd : (l.map Prod.fst).Nodup)
    (h : (k, n) ∈ l) : Lookup.own l k = some n := by
  induction l with
  | nil => cases h
  | cons p rest ih =>
    obtain ⟨k', n'⟩ := p
    simp only [List.map_cons, List.nodup_cons] at hnd
    rw [own_cons]
    rcases List.mem_cons.mp h with h | h
    · cases h
      simp
    · have hne : k ≠ k' := by
        intro hk
        apply hnd.1
        rw [← hk]
        exact List.mem_map.mpr ⟨(k, n), h, rfl⟩
      simp only [hne, if_false]
      exact ih hnd.2 h

theorem own_append (l₁ l₂ : Lookup) (k : Str) :
    Lookup.own (l₁ ++ l₂) k = (Lookup.own l₁ k).or (Lookup.own l₂ k) := by
  simp only [Lookup.own, List.lookup_append]

theorem set_keys (key : Str) (node : FileNode) (l : Lookup) :
    (Lookup.set key node l).map Prod.fst = l.map Prod.fst := by
  induction l with
  | nil => rfl
  | cons p rest ih =>
    obtain ⟨k, n⟩ := p
    unfold Lookup.set
    split
    · rfl
    · simp only [List.map_cons, ih]

theorem own_set (key : Str) (node : FileNode) (l : Lookup) (k : Str) :
    Lookup.own (Lookup.set key node l) k =
      if k = key then (Lookup.own l key).map (fun _ => node) else Lookup.own l k := by
  induction l with
  | nil =>
    simp only [Lookup.set, Lookup.own, List.lookup_nil, Option.map_none', ite_self]
  | cons p rest ih =>
    obtain ⟨k', n'⟩ := p
    unfold Lookup.set
    by_cases h1 : k' = key
    · subst h1
      simp only [if_true, own_cons]
      by_cases h2 : k = k'
      · simp [h2]
      · simp [h2]
    · simp only [h1, if_false, own_cons, ih]
      by_cases h2 : k = key
      · subst h2
        have : ¬ k = k' := fun h => h1 h.symm
        have h3 : ¬ k' = k := h1
        simp [this]
      · simp only [h2, if_false]

theorem childPath_ne_nil (cur part : Str) (h : part ≠ []) : childPath cur part ≠ [] := by
  unfold childPath
  split
  · simp
  · exact h

theorem childPath_ne_self (cur part : Str) (h : part ≠ []) : childPath cur part ≠ cur := by
  unfold childPath
  split
  · intro heq
    have := congrArg List.length heq
    simp at this
  · next hc =>
    simp only [ne_eq, not_not] at hc
    rw [hc]
    exact h

/-- The store after `lookup[current] = node` and the push to the parent. -/
theorem pushChild_own (store store' : Lookup) (cur c : Str) (node : FileNode)
    (hne : c ≠ cur) (hnew : store.own c = none)
    (hpush : pushChild (store ++ [(c, node)]) cur c = .ok store') :
    ∃ parent cs, store.own cur = some parent ∧ parent.children = some cs ∧
      store'.map Prod.fst = store.map Prod.fst ++ [c] ∧
      ∀ k, store'.own k =
        if k = cur then some { parent with children := some (cs ++ [c]) }
        else if k = c then some node else store.own k := by
  have hcur : Lookup.own (store ++ [(c, node)]) cur = store.own cur := by
    have h' : ¬ cur = c := fun h => hne h.symm
    rw [own_append, own_cons]
    simp only [h', if_false, Lookup.own, List.lookup_nil, Option.or_none]
  unfold pushChild at hpush
  rw [hcur] at hpush
  cases hp : store.own cur with
  | none =>
    rw [hp] at hpush
    cases hpush
  | some parent =>
    rw [hp] at hpush
    cases hc : parent.children with
    | none =>
      simp only [hc] at hpush
      cases hpush
    | some cs =>
      simp only [hc] at hpush
      have hs : store' = Lookup.set cur { parent with children := some (cs ++ [c]) }
          (store ++ [(c, node)]) := by
        cases hpush
        rfl
      refine ⟨parent, cs, rfl, hc, ?_, ?_⟩
      · rw [hs, set_keys]
        simp
      · intro k
        rw [hs, own_set, hcur, hp]
        by_cases h1 : k = cur
        · simp only [h1, if_true, Option.map_some']
        · simp only [h1, if_false, own_append, own_cons]
          by_cases h2 : k = c
          · subst h2
            simp only [hnew, if_true, Option.none_or]
          · simp only [h2, if_false, Lookup.own, List.lookup_nil, Option.or_none]

/-- Creating a node keeps the invariant and appends its key. -/
theorem create_inv (store store' : Lookup) (cur part c : Str) (node : FileNode)
    (hinv : StoreInv store) (hpart : part ≠ []) (hc : c = childPath cur part)
    (hnew : store.own c = none)
    (hname : node.name = part) (hpath : node.path = some c)
    (himp : node.important = some (isImportantFile part))
    (hcf : node.children.isSome = true ↔ node.type = .folder)
    (hce : ∀ cs, node.children = some cs → cs = [])
    (hpush : pushChild (store ++ [(c, node)]) cur c = .ok store') :
    StoreInv store' ∧ store'.map Prod.fst = store.map Prod.fst ++ [c] := by
  have hcne : c ≠ cur := hc ▸ childPath_ne_self cur part hpart
  have hcne' : ¬ cur = c := fun h => hcne h.symm
  have hcnil : c ≠ [] := hc ▸ childPath_ne_nil cur part hpart
  have hcnil' : ¬ ([] : Str) = c := fun h => hcnil h.symm
  obtain ⟨parent, cs, hpar, hcs, hkeys, hown⟩ :=
    pushChild_own store store' cur c node hcne hnew hpush
  have hcnot : c ∉ store.map Prod.fst := (own_eq_none_iff store c).mp hnew
  have hownCur : store'.own cur = some { parent with children := some (cs ++ [c]) } := by
    rw [hown]
    simp only [if_true]
  have hownC : store'.own c = some node := by
    rw [hown]
    simp only [hcne, if_false, if_true]
  have hownOld : ∀ k, k ≠ cur → k ≠ c → store'.own k = store.own k := by
    intro k h1 h2
    rw [hown]
    simp only [h1, h2, if_false]
  refine ⟨⟨?_, ?_, ?_, ?_, ?_, ?_, ?_⟩, hkeys⟩
  · -- distinct keys
    rw [hkeys]
    exact List.nodup_append.mpr ⟨hinv.nodupKeys, List.nodup_singleton c, by
      intro a ha hb
      rw [List.mem_singleton] at hb
      exact hcnot (hb ▸ ha)⟩
  · -- the root
    obtain ⟨r, hr, hr1, hr2, hr3⟩ := hinv.root
    by_cases h : cur = []
    · subst h
      rw [hpar] at hr
      cases hr
      exact ⟨{ parent with children := some (cs ++ [c]) }, hownCur, hr1, hr2, hr3⟩
    · refine ⟨r, ?_, hr1, hr2, hr3⟩
      rw [hownOld [] (fun h' => h h'.symm) hcnil', hr]
  · -- path and important flag
    intro k n hk hkn
    by_cases h1 : k = cur
    · subst h1
      rw [hownCur] at hk
      cases hk
      exact hinv.pathKey k parent hpar hkn
    · by_cases h2 : k = c
      · subst h2
        rw [hownC] at hk
        cases hk
        exact ⟨hpath, by rw [himp, hname]⟩
      · rw [hownOld k h1 h2] at hk
        exact hinv.pathKey k n hk hkn
  · -- children exactly on folders
    intro k n hk
    by_cases h1 : k = cur
    · subst h1
      rw [hownCur] at hk
      cases hk
      have := hinv.childrenFolder k parent hpar
      simp only [hcs, Option.isSome_some, true_iff] at this
      simp only [Option.isSome_some, true_iff]
      exact this
    · by_cases h2 : k = c
      · subst h2
        rw [hownC] at hk
        cases hk
        exact hcf
      · rw [hownOld k h1 h2] at hk
        exact hinv.childrenFolder k n hk
  · -- the path of a child
    intro p pn cs' c' hp hcs' hc'
    have old : ∀ q qn qs, store.own q = some qn → qn.children = some qs → c' ∈ qs →
        c' ≠ [] ∧ ∃ cn, store'.own c' = some cn ∧ c' = childPath q cn.name := by
      intro q qn qs hq hqs hcq
      obtain ⟨hnil, cn, hcn, heq⟩ := hinv.childPaths q qn qs c' hq hqs hcq
      refine ⟨hnil, ?_⟩
      by_cases h1 : c' = cur
      · subst h1
        rw [hpar] at hcn
        cases hcn
        exact ⟨_, hownCur, heq⟩
      · have h2 : c' ≠ c := by
          intro h
          rw [h, hnew] at hcn
          cases hcn
        exact ⟨cn, by rw [hownOld c' h1 h2, hcn], heq⟩
    by_cases h1 : p = cur
    · subst h1
      rw [hownCur] at hp
      cases hp
      simp only [Option.some.injEq] at hcs'
      subst hcs'
      rcases List.mem_append.mp hc' with h | h
      · exact old p parent cs hpar hcs h
      · rw [List.mem_singleton] at h
        subst h
        exact ⟨hcnil, node, hownC, by rw [hname]; exact hc⟩
    · by_cases h2 : p = c
      · subst h2
        rw [hownC] at hp
        cases hp
        have := hce cs' hcs'
        subst this
        cases hc'
      · rw [hownOld p h1 h2] at hp
        exact old p pn cs' hp hcs' hc'
  · -- every node other than the root is a child
    intro k n hk hkn
    have viaOld : ∀ q qn qs, store.own q = some qn → qn.children = some qs → k ∈ qs →
        ∃ p pn cs', store'.own p = some pn ∧ pn.children = some cs' ∧ k ∈ cs' := by
      intro q qn qs hq hqs hkq
      by_cases h1 : q = cur
      · subst h1
        rw [hpar] at hq
        cases hq
        rw [hcs] at hqs
        cases hqs
        exact ⟨q, _, cs ++ [c], hownCur, rfl, List.mem_append_left _ hkq⟩
      · have h2 : q ≠ c := by
          intro h
          rw [h, hnew] at hq
          cases hq
        exact ⟨q, qn, qs, by rw [hownOld q h1 h2, hq], hqs, hkq⟩
    by_cases h2 : k = c
    · subst h2
      exact ⟨cur, _, cs ++ [k], hownCur, rfl, List.mem_append_right _ (List.mem_singleton_self k)⟩
    · by_cases h1 : k = cur
      · subst h1
        obtain ⟨q, qn, qs, hq, hqs, hkq⟩ := hinv.hasParent k parent hpar hkn
        exact viaOld q qn qs hq hqs hkq
      · rw [hownOld k h1 h2] at hk
        obtain ⟨q, qn, qs, hq, hqs, hkq⟩ := hinv.hasParent k n hk hkn
        exact viaOld q qn qs hq hqs hkq
  · -- children in creation order
    intro p pn cs' hp hcs'
    rw [hkeys]
    by_cases h1 : p = cur
    · subst h1
      rw [hownCur] at hp
      cases hp
      simp only [Option.some.injEq] at hcs'
      subst hcs'
      exact (hinv.childOrder p parent cs hpar hcs).append (List.Sublist.refl [c])
    · by_cases h2 : p = c
      · subst h2
        rw [hownC] at hp
        cases hp
        have := hce cs' hcs'
        subst this
        exact List.nil_sublist _
      · rw [hownOld p h1 h2] at hp
        exact (hinv.childOrder p pn cs' hp hcs').trans (List.sublist_append_left _ _)

theorem truthy_eq_false_iff (store : Lookup) (c : Str) :
    Lookup.truthy store c = false ↔ store.own c = none ∧ c ∉ objectPrototypeKeys := by
  unfold Lookup.truthy
  rw [Bool.or_eq_false_iff]
  constructor
  · rintro ⟨h1, h2⟩
    refine ⟨?_, ?_⟩
    · cases h : store.own c with
      | none => rfl
      | some n => rw [h] at h1; cases h1
    · intro hm
      have : objectPrototypeKeys.contains c = true := List.elem_iff.mpr hm
      rw [this] at h2
      cases h2
  · rintro ⟨h1, h2⟩
    refine ⟨by rw [h1]; rfl, ?_⟩
    cases h : objectPrototypeKeys.contains c with
    | false => rfl
    | true => exact absurd (List.elem_iff.mp h) h2

theorem walkParts_inv (dir : Bool) (len : Nat) (parts : List Str) :
    ∀ (i : Nat) (cur : Str) (store store' : Lookup), (∀ p ∈ parts, p ≠ []) → StoreInv store →
      walkParts dir len parts i cur store = .ok store' →
      StoreInv store' ∧
        store'.map Prod.fst = (pathsFrom cur parts).foldl addNewKey (store.map Prod.fst) := by
  induction parts with
  | nil =>
    intro i cur store store' _ hinv h
    simp only [walkParts, Except.ok.injEq] at h
    subst h
    exact ⟨hinv, rfl⟩
  | cons part rest ih =>
    intro i cur store store' hparts hinv h
    have hpart : part ≠ [] := hparts part (List.mem_cons_self _ _)
    have hrest : ∀ p ∈ rest, p ≠ [] := fun p hp => hparts p (List.mem_cons_of_mem _ hp)
    simp only [walkParts] at h
    have hcp : (if cur ≠ [] then cur ++ '/' :: part else part) = childPath cur part := rfl
    rw [hcp] at h
    simp only [pathsFrom, List.foldl_cons]
    cases ht : Lookup.truthy store (childPath cur part) with
    | false =>
      obtain ⟨hnone, hproto⟩ := (truthy_eq_false_iff store _).mp ht
      simp only [ht, Bool.not_false, if_true] at h
      split at h
      · next s1 hp =>
        have hcreate := create_inv store s1 cur part (childPath cur part) _ hinv hpart rfl hnone
          rfl rfl rfl
          (by cases (dir || decide (i < len - 1)) <;> simp)
          (by
            intro cs hcs
            cases hb : (dir || decide (i < len - 1)) <;> simp [hb] at hcs
            exact hcs) hp
        obtain ⟨hinv1, hkeys1⟩ := hcreate
        obtain ⟨hinv', hkeys'⟩ := ih (i + 1) (childPath cur part) s1 store' hrest hinv1 h
        refine ⟨hinv', ?_⟩
        rw [hkeys', hkeys1]
        congr 1
        have hnot : childPath cur part ∉ store.map Prod.fst := (own_eq_none_iff store _).mp hnone
        simp only [addNewKey, hnot, hproto, or_self, if_false]
      · cases h
    | true =>
      simp only [ht, Bool.not_true, Bool.false_eq_true, if_false] at h
      obtain ⟨hinv', hkeys'⟩ := ih (i + 1) (childPath cur part) store store' hrest hinv h
      refine ⟨hinv', ?_⟩
      rw [hkeys']
      congr 1
      have hmem : childPath cur part ∈ store.map Prod.fst ∨ childPath cur part ∈ objectPrototypeKeys := by
        by_contra hcon
        rw [not_or] at hcon
        have := (truthy_eq_false_iff store (childPath cur part)).mpr
          ⟨(own_eq_none_iff store _).mpr hcon.1, hcon.2⟩
        rw [ht] at this
        cases this
      simp only [addNewKey, hmem, if_true]

theorem rootStore_inv : StoreInv [("".toList, rootNode)] := by
  refine ⟨by simp, ⟨rootNode, rfl, rfl, rfl, rfl⟩, ?_, ?_, ?_, ?_, ?_⟩
  · intro k n hk hkn
    rw [own_cons] at hk
    have : ¬ k = "".toList := hkn
    simp only [this, if_false, Lookup.own, List.lookup_nil] at hk
    cases hk
  · intro k n hk
    rw [own_cons] at hk
    by_cases h : k = "".toList
    · simp only [h, if_true, Option.some.injEq] at hk
      subst hk
      simp [rootNode]
    · simp only [h, if_false, Lookup.own, List.lookup_nil] at hk
      cases hk
  · intro p pn cs c hp hcs hc
    rw [own_cons] at hp
    by_cases h : p = "".toList
    · simp only [h, if_true, Option.some.injEq] at hp
      subst hp
      simp only [rootNode, Option.some.injEq] at hcs
      subst hcs
      cases hc
    · simp only [h, if_false, Lookup.own, List.lookup_nil] at hp
      cases hp
  · intro k n hk hkn
    rw [own_cons] at hk
    have : ¬ k = "".toList := hkn
    simp only [this, if_false, Lookup.own, List.lookup_nil] at hk
    cases hk
  · intro p pn cs hp hcs
    rw [own_cons] at hp
    by_cases h : p = "".toList
    · simp only [h, if_true, Option.some.injEq] at hp
      subst hp
      simp only [rootNode, Option.some.injEq] at hcs
      subst hcs
      exact List.nil_sublist _
    · simp only [h, if_false, Lookup.own, List.lookup_nil] at hp
      cases hp

theorem pathParts_ne_nil (path : Str) : ∀ p ∈ pathParts path, p ≠ [] := by
  intro p hp
  have := (List.mem_filter.mp hp).2
  simpa using this

theorem buildLoop_inv (files : Files) :
    ∀ (store store' : Lookup), StoreInv store → buildLoop files store = .ok store' →
      StoreInv store' ∧
        store'.map Prod.fst =
          (files.flatMap (fun pe => pathsFrom [] (pathParts pe.1))).foldl addNewKey
            (store.map Prod.fst) := by
  induction files with
  | nil =>
    intro store store' hinv h
    simp only [buildLoop, Except.ok.injEq] at h
    subst h
    exact ⟨hinv, rfl⟩
  | cons pe rest ih =>
    intro store store' hinv h
    obtain ⟨path, entry⟩ := pe
    simp only [buildLoop] at h
    cases hw : walkParts entry.dir (pathParts path).length (pathParts path) 0 [] store with
    | error e =>
      rw [hw] at h
      cases h
    | ok s1 =>
      rw [hw] at h
      simp only at h
      obtain ⟨hinv1, hkeys1⟩ := walkParts_inv entry.dir _ (pathParts path) 0 [] store s1
        (pathParts_ne_nil path) hinv hw
      obtain ⟨hinv', hkeys'⟩ := ih s1 store' hinv1 h
      refine ⟨hinv', ?_⟩
      rw [hkeys', hkeys1, List.flatMap_cons, List.foldl_append]

/-- The invariant holds of every store `buildFileTree` returns, and its keys are the
root key followed by the paths walked, each at its first occurrence. -/
theorem buildFileTree_inv (files : Files) (store : Lookup) (h : buildFileTree files = .ok store) :
    StoreInv store ∧
      store.map Prod.fst =
        (files.flatMap (fun pe => pathsFrom [] (pathParts pe.1))).foldl addNewKey [[]] :=
  buildLoop_inv files _ store rootStore_inv h

/-! ## buildFileTree: keys and prefix paths -/

theorem joinWith_concat (sep : Str) (pre : List Str) (p : Str) (h : pre ≠ []) :
    joinWith sep (pre ++ [p]) = joinWith sep pre ++ sep ++ p := by
  induction pre with
  | nil => exact absurd rfl h
  | cons x rest ih =>
    cases rest with
    | nil => simp [joinWith]
    | cons y r =>
      have := ih (List.cons_ne_nil y r)
      simp only [List.cons_append] at this
      show x ++ sep ++ joinWith sep (y :: (r ++ [p])) = x ++ sep ++ joinWith sep (y :: r) ++ sep ++ p
      rw [this]
      simp only [List.append_assoc]

theorem joinWith_ne_nil (sep : Str) (pre : List Str) (h : pre ≠ []) (hne : ∀ x ∈ pre, x ≠ []) :
    joinWith sep pre ≠ [] := by
  cases pre with
  | nil => exact absurd rfl h
  | cons x rest =>
    have hx : x ≠ [] := hne x (List.mem_cons_self _ _)
    cases rest with
    | nil => simpa [joinWith] using hx
    | cons y r =>
      simp only [joinWith, ne_eq, List.append_eq_nil, not_and]
      intro h1
      exact absurd h1.1 hx

theorem childPath_joinWith (pre : List Str) (part : Str) (hne : ∀ x ∈ pre, x ≠ []) :
    childPath (joinWith "/".toList pre) part = joinWith "/".toList (pre ++ [part]) := by
  by_cases h : pre = []
  · subst h
    rfl
  · rw [joinWith_concat _ _ _ h]
    simp only [childPath, joinWith_ne_nil _ pre h hne, ne_eq, not_false_eq_true, if_true]
    simp

theorem pathsFrom_joinWith (parts : List Str) :
    ∀ pre : List Str, (∀ x ∈ pre, x ≠ []) → (∀ x ∈ parts, x ≠ []) →
      pathsFrom (joinWith "/".toList pre) parts =
        (parts.inits.tail).map (fun q => joinWith "/".toList (pre ++ q)) := by
  induction parts with
  | nil =>
    intro pre _ _
    rfl
  | cons part rest ih =>
    intro pre hpre hparts
    have hpart : part ≠ [] := hparts part (List.mem_cons_self _ _)
    have hrest : ∀ x ∈ rest, x ≠ [] := fun x hx => hparts x (List.mem_cons_of_mem _ hx)
    have hpre' : ∀ x ∈ pre ++ [part], x ≠ [] := by
      intro x hx
      rcases List.mem_append.mp hx with h | h
      · exact hpre x h
      · rw [List.mem_singleton] at h
        exact h ▸ hpart
    have hinits : rest.inits = [] :: rest.inits.tail := by
      cases rest <;> rfl
    simp only [pathsFrom, childPath_joinWith pre part hpre, ih (pre ++ [part]) hpre' hrest,
      List.inits, List.tail_cons]
    rw [hinits]
    simp only [List.map_cons, List.tail_cons, List.map_map, List.cons.injEq, true_and]
    apply List.map_congr_left
    intro q _
    simp

/-- The values of `current` are the paths of the prefixes of the key. -/
theorem pathsFrom_pathParts (key : Str) : pathsFrom [] (pathParts key) = prefixPaths key := by
  have := pathsFrom_joinWith (pathParts key) [] (by simp) (pathParts_ne_nil key)
  simpa [prefixPaths, keyPrefixes, joinWith] using this

theorem pathsFrom_ne_nil (parts : List Str) :
    ∀ cur : Str, (∀ x ∈ parts, x ≠ []) → ∀ c ∈ pathsFrom cur parts, c ≠ [] := by
  induction parts with
  | nil =>
    intro cur _ c hc
    cases hc
  | cons part rest ih =>
    intro cur hparts c hc
    simp only [pathsFrom, List.mem_cons] at hc
    rcases hc with h | h
    · rw [h]
      exact childPath_ne_nil cur part (hparts part (List.mem_cons_self _ _))
    · exact ih _ (fun x hx => hparts x (List.mem_cons_of_mem _ hx)) c h

theorem foldl_addNewKey_root (l : List Str) :
    ∀ acc : List Str, (∀ c ∈ l, c ≠ []) →
      l.foldl addNewKey ([] :: acc) = [] :: l.foldl addNewKey acc := by
  induction l with
  | nil =>
    intro acc _
    rfl
  | cons x rest ih =>
    intro acc hl
    have hx : x ≠ [] := hl x (List.mem_cons_self _ _)
    have hstep : addNewKey ([] :: acc) x = [] :: addNewKey acc x := by
      simp only [addNewKey, List.mem_cons, hx, false_or]
      split <;> rfl
    rw [List.foldl_cons, List.foldl_cons, hstep]
    exact ih _ (fun c hc => hl c (List.mem_cons_of_mem _ hc))

theorem foldl_addNewKey_filter (l : List Str) :
    ∀ acc : List Str,
      l.foldl addNewKey (acc.filter (fun c => decide (c ∉ objectPrototypeKeys))) =
        (l.foldl (fun acc x => if x ∈ acc then acc else acc ++ [x]) acc).filter
          (fun c => decide (c ∉ objectPrototypeKeys)) := by
  induction l with
  | nil =>
    intro acc
    rfl
  | cons x rest ih =>
    intro acc
    rw [List.foldl_cons, List.foldl_cons, ← ih]
    congr 1
    by_cases hp : x ∈ objectPrototypeKeys
    · have h1 : addNewKey (acc.filter (fun c => decide (c ∉ objectPrototypeKeys))) x =
          acc.filter (fun c => decide (c ∉ objectPrototypeKeys)) := by
        simp only [addNewKey, hp, or_true, if_true]
      rw [h1]
      split
      · rfl
      · simp [List.filter_append, hp]
    · by_cases hm : x ∈ acc
      · have : x ∈ acc.filter (fun c => decide (c ∉ objectPrototypeKeys)) :=
          List.mem_filter.mpr ⟨hm, by simpa using hp⟩
        simp only [addNewKey, this, true_or, if_true, hm]
      · have : x ∉ acc.filter (fun c => decide (c ∉ objectPrototypeKeys)) :=
          fun h => hm (List.mem_filter.mp h).1
        simp only [addNewKey, this, hp, or_self, if_false, hm]
        simp [List.filter_append, hp]

/-- The keys of a returned store, in creation order: the root key, then the prefix
paths of the keys of the mapping in the order of their first occurrence, without the
names inherited from `Object.prototype`. -/
theorem buildFileTree_keys (files : Files) (store : Lookup) (h : buildFileTree files = .ok store) :
    store.map Prod.fst =
      [] :: (firstOccurrences (files.flatMap (fun pe => prefixPaths pe.1))).filter
        (fun c => decide (c ∉ objectPrototypeKeys)) := by
  have hk := (buildFileTree_inv files store h).2
  have hfun : (fun pe : Str × ZipEntry => pathsFrom [] (pathParts pe.1)) =
      fun pe => prefixPaths pe.1 := by
    funext pe
    exact pathsFrom_pathParts pe.1
  have hne : ∀ c ∈ files.flatMap (fun pe => pathsFrom [] (pathParts pe.1)), c ≠ [] := by
    intro c hc
    obtain ⟨pe, _, hpe⟩ := List.mem_flatMap.mp hc
    exact pathsFrom_ne_nil _ [] (pathParts_ne_nil pe.1) c hpe
  rw [hk, foldl_addNewKey_root _ [] hne]
  have := foldl_addNewKey_filter (files.flatMap (fun pe => pathsFrom [] (pathParts pe.1))) []
  rw [List.filter_nil] at this
  rw [this, hfun]
  rfl

/-! ## buildFileTree: theorems on the returned tree -/

theorem sublist_of_cons_not_mem (cs l : List Str) (a : Str) (h : cs.Sublist (a :: l))
    (ha : a ∉ cs) : cs.Sublist l := by
  cases h with
  | cons _ h' => exact h'
  | cons₂ _ h' => exact absurd (List.mem_cons_self _ _) ha

/-- C19: in every store `buildFileTree` returns, the `important` flag of a node is
true if and only if the node's name is exactly one of the twelve listed names; the
match is case-sensitive. -/
theorem buildFileTree_important_iff (files : Files) (store : Lookup)
    (h : buildFileTree files = .ok store) :
    (∀ k n, (k, n) ∈ store →
      (n.important = some true ↔
        n.name ∈ ["package.json".toList, "README.md".toList, "index.js".toList,
          "index.jsx".toList, "App.js".toList, "App.jsx".toList, "main.js".toList,
          "main.jsx".toList, ".env".toList, "config.js".toList, "vite.config.js".toList,
          "webpack.config.js".toList])) ∧
    isImportantFile "README.md".toList = true ∧ isImportantFile "readme.md".toList = false := by
  refine ⟨?_, by decide, by decide⟩
  intro k n hmem
  obtain ⟨hinv, _⟩ := buildFileTree_inv files store h
  have hown := own_of_mem store k n hinv.nodupKeys hmem
  by_cases hk : k = []
  · subst hk
    obtain ⟨r, hr, hr1, _, hr3⟩ := hinv.root
    rw [hown] at hr
    cases hr
    rw [hr3, hr1]
    constructor
    · intro hc
      cases hc
    · intro hc
      exact absurd hc (by decide)
  · obtain ⟨_, himp⟩ := hinv.pathKey k n hown hk
    rw [himp]
    simp only [Option.some.injEq, isImportantFile]
    exact List.elem_iff

theorem buildFileTree_important_iff_witness :
    ∃ store, buildFileTree sampleFiles = .ok store ∧
      ∀ k n, (k, n) ∈ store →
        (n.important = some true ↔
          n.name ∈ ["package.json".toList, "README.md".toList, "index.js".toList,
            "index.jsx".toList, "App.js".toList, "App.jsx".toList, "main.js".toList,
            "main.jsx".toList, ".env".toList, "config.js".toList, "vite.config.js".toList,
            "webpack.config.js".toList]) :=
  ⟨_, rfl, (buildFileTree_important_iff sampleFiles _ rfl).1⟩

/-- C20: in every tree `buildFileTree` returns, the root is the node under the empty
key; every other node has its key as `path`, so no two nodes have the same path; a
child of the root has `path = name` and a child of any other node has
`path = parent.path + '/' + name`; every node other than the root is in the `children`
of a node; `children` is a list exactly on folder nodes and `undefined` on file nodes;
and the children of a node are in the order in which their paths first occur as
prefixes of the keys of the mapping. -/
theorem buildFileTree_tree_shape (files : Files) (store : Lookup)
    (h : buildFileTree files = .ok store) :
    (∃ root, store.own [] = some root ∧ root.name = "root".toList ∧ root.path = none) ∧
    (∀ k n, (k, n) ∈ store → k ≠ [] → n.path = some k) ∧
    (store.map Prod.fst).Nodup ∧
    (store.nonRoot.map (fun kn => kn.2.path)).Nodup ∧
    (∀ p pn cs c, (p, pn) ∈ store → pn.children = some cs → c ∈ cs →
      ∃ cn, (c, cn) ∈ store ∧ cn.path = some c ∧
        c = (match pn.path with
             | none => cn.name
             | some parentPath => parentPath ++ '/' :: cn.name)) ∧
    (∀ k n, (k, n) ∈ store → k ≠ [] →
      ∃ p pn cs, (p, pn) ∈ store ∧ pn.children = some cs ∧ k ∈ cs) ∧
    (∀ k n, (k, n) ∈ store →
      (n.type = .folder → ∃ cs, n.children = some cs) ∧ (n.type = .file → n.children = none)) ∧
    (∀ p pn cs, (p, pn) ∈ store → pn.children = some cs →
      cs.Sublist (firstOccurrences (files.flatMap (fun pe => prefixPaths pe.1)))) := by
  obtain ⟨hinv, _⟩ := buildFileTree_inv files store h
  have hkeys := buildFileTree_keys files store h
  have own := fun k n (hm : (k, n) ∈ store) => own_of_mem store k n hinv.nodupKeys hm
  refine ⟨?_, ?_, hinv.nodupKeys, ?_, ?_, ?_, ?_, ?_⟩
  · obtain ⟨r, hr, hr1, hr2, _⟩ := hinv.root
    exact ⟨r, hr, hr1, hr2⟩
  · intro k n hm hk
    exact (hinv.pathKey k n (own k n hm) hk).1
  · have hmap : store.nonRoot.map (fun kn => kn.2.path) =
        store.nonRoot.map (fun kn => some kn.1) := by
      apply List.map_congr_left
      intro kn hkn
      obtain ⟨k, n⟩ := kn
      have hf := List.mem_filter.mp hkn
      have hk : k ≠ [] := by simpa using hf.2
      exact (hinv.pathKey k n (own k n hf.1) hk).1
    rw [hmap]
    have hnd : (store.nonRoot.map Prod.fst).Nodup :=
      (List.Sublist.map Prod.fst (List.filter_sublist store)).nodup hinv.nodupKeys
    have : store.nonRoot.map (fun kn => some kn.1) = (store.nonRoot.map Prod.fst).map some := by
      rw [List.map_map]
      rfl
    rw [this]
    exact hnd.map (Option.some_injective _)
  · intro p pn cs c hm hcs hc
    obtain ⟨hcne, cn, hcn, heq⟩ := hinv.childPaths p pn cs c (own p pn hm) hcs hc
    refine ⟨cn, mem_of_own store c cn hcn, (hinv.pathKey c cn hcn hcne).1, ?_⟩
    by_cases hp : p = []
    · subst hp
      obtain ⟨r, hr, _, hr2, _⟩ := hinv.root
      rw [own [] pn hm] at hr
      cases hr
      rw [hr2]
      simpa [childPath] using heq
    · rw [(hinv.pathKey p pn (own p pn hm) hp).1]
      simpa [childPath, hp] using heq
  · intro k n hm hk
    obtain ⟨p, pn, cs, hp, hcs, hkc⟩ := hinv.hasParent k n (own k n hm) hk
    exact ⟨p, pn, cs, mem_of_own store p pn hp, hcs, hkc⟩
  · intro k n hm
    have hcf := hinv.childrenFolder k n (own k n hm)
    constructor
    · intro ht
      have := hcf.mpr ht
      exact Option.isSome_iff_exists.mp this
    · intro ht
      cases hc : n.children with
      | none => rfl
      | some cs =>
        have := hcf.mp (by rw [hc]; rfl)
        rw [ht] at this
        cases this
  · intro p pn cs hm hcs
    have hsub := hinv.childOrder p pn cs (own p pn hm) hcs
    rw [hkeys] at hsub
    have hnil : ([] : Str) ∉ cs := fun hc =>
      (hinv.childPaths p pn cs [] (own p pn hm) hcs hc).1 rfl
    exact (sublist_of_cons_not_mem cs _ [] hsub hnil).trans (List.filter_sublist _)

theorem buildFileTree_tree_shape_witness :
    ∃ store, buildFileTree sampleFiles = .ok store ∧
      (store.map Prod.fst).Nodup ∧
      (∀ p pn cs, (p, pn) ∈ store → pn.children = some cs →
        cs.Sublist (firstOccurrences (sampleFiles.flatMap (fun pe => prefixPaths pe.1)))) :=
  ⟨_, rfl, (buildFileTree_tree_shape sampleFiles _ rfl).2.2.1,
    (buildFileTree_tree_shape sampleFiles _ rfl).2.2.2.2.2.2.2⟩

/-! ## analyzeProject: the project name -/

/-- The name `analyzeProject` returns: the file name with its first `.zip` removed. -/
theorem analyzeProject_name (parse : Str → Option JsVal) (file : UploadedFile)
    (data : ProjectData) (h : analyzeProject parse file = some data) :
    data.name = replaceFirst ".zip".toList [] file.name := by
  unfold analyzeProject at h
  cases ht : analyzeProjectTry parse file with
  | error e =>
    rw [ht] at h
    cases h
  | ok d =>
    rw [ht] at h
    cases h
    unfold analyzeProjectTry at ht
    split at ht
    · cases ht
    · split at ht
      · cases ht
      · split at ht
        · cases ht
        · split at ht
          · cases ht
          · cases ht
            rfl

/-- Removing the first `.zip` removes the trailing one when there is no earlier one. -/
theorem replaceFirst_trailing (base : Str)
    (h : ∀ pre post, base ++ ".zip".toList = pre ++ ".zip".toList ++ post → post = []) :
    replaceFirst ".zip".toList [] (base ++ ".zip".toList) = base := by
  induction base with
  | nil => rfl
  | cons c cs ih =>
    have hnot : ¬ (".zip".toList <+: c :: (cs ++ ".zip".toList)) := by
      rintro ⟨post, hpost⟩
      have hp := h [] post (by simpa using hpost.symm)
      subst hp
      have := congrArg List.length hpost
      simp at this
    have hb : List.isPrefixOf ".zip".toList (c :: (cs ++ ".zip".toList)) = false := by
      cases hx : List.isPrefixOf ".zip".toList (c :: (cs ++ ".zip".toList)) with
      | false => rfl
      | true => exact absurd (List.isPrefixOf_iff_prefix.mp hx) hnot
    rw [List.cons_append, replaceFirst, hb]
    simp only [Bool.false_eq_true, if_false, List.cons.injEq, true_and]
    apply ih
    intro pre post hpp
    exact h (c :: pre) post (by rw [List.cons_append, hpp]; rfl)

/-- C21 (the code at a failing input): the upload zone accepts the file name
`my.zip.backup.zip`, and `analyzeProject` names the project `my.backup.zip`, the name
without its first `.zip`, not `my.zip.backup`, the name without its trailing `.zip`;
for `project.zip`, where the only `.zip` is the trailing one, the name is `project`. -/
theorem analyzeProject_name_drops_first_zip :
    handleFileAccepts "my.zip.backup.zip".toList = true ∧
    (∀ parse : Str → Option JsVal,
      (analyzeProject parse { name := "my.zip.backup.zip".toList, contents := some [] }).map
        (fun data => data.name) = some "my.backup.zip".toList) ∧
    "my.zip.backup.zip".toList = "my.zip.backup".toList ++ ".zip".toList ∧
    "my.backup.zip".toList ≠ "my.zip.backup".toList ∧
    (∀ parse : Str → Option JsVal,
      (analyzeProject parse { name := "project.zip".toList, contents := some [] }).map
        (fun data => data.name) = some "project".toList) :=
  ⟨by decide, fun _ => rfl, rfl, by decide, fun _ => rfl⟩

/-! ## VideoPlayer: seek to an arbitrary number -/

theorem JsNumber.ge_ofInt (a b : Int) :
    JsNumber.ge (.ofInt a) (.ofInt b) = decide (a ≥ b) := by
  simp only [JsNumber.ofInt, JsNumber.ge, JsNumber.lt]
  rw [Bool.eq_iff_iff]
  simp

theorem JsNumber.lt_ofInt (a b : Int) :
    JsNumber.lt (.ofInt a) (.ofInt b) = decide (a < b) := by
  simp only [JsNumber.ofInt, JsNumber.lt]
  rw [Bool.eq_iff_iff]
  simp

/-- On an integer argument `seekToNumber` is `seekTo`. -/
theorem seekToNumber_int (it : Str → Str) (props : Props) (t : Int) (s : Player) :
    seekToNumber it props (.ofInt t) s.toNumberPlayer = (seekTo it props t s).toNumberPlayer := by
  simp only [seekToNumber, seekTo, Player.toNumberPlayer, JsNumber.ge_ofInt,
    JsNumber.lt_ofInt]
  generalize findIndexFrom (fun (ch : Chapter) i => decide (t ≥ ch.time) &&
      (decide (i = (chapters it props s.selectedAvatar).length - 1) ||
        decide (t < ((chapters it props s.selectedAvatar).get? (i + 1)).elim 0 fun c => c.time)))
    (chapters it props s.selectedAvatar) 0 = r
  cases r <;> rfl

theorem seekToNumber_currentTime (it : Str → Str) (props : Props) (t : JsNumber)
    (s : NumberPlayer) : (seekToNumber it props t s).currentTime = t := by
  simp only [seekToNumber]
  split <;> rfl

theorem clamp_eq_self_iff (t : JsNumber) :
    t = JsNumber.clamp t (.finite 0) (.finite 160) ↔
      (t = .nan ∨ (t.ge (.finite 0) = true ∧ JsNumber.ge (.finite 160) t = true)) := by
  cases t with
  | nan => simp [JsNumber.clamp, JsNumber.min, JsNumber.max]
  | negInf => simp [JsNumber.clamp, JsNumber.min, JsNumber.max, JsNumber.lt, JsNumber.ge]
  | posInf => simp [JsNumber.clamp, JsNumber.min, JsNumber.max, JsNumber.lt, JsNumber.ge]
  | finite q =>
    have hn : JsNumber.finite q ≠ .nan := fun h => (by cases h)
    have hval : JsNumber.clamp (.finite q) (.finite 0) (.finite 160) =
        .finite (if q < 160 then (if 0 < q then q else 0) else 160) := by
      by_cases h1 : q < 160
      · by_cases h2 : (0 : ℚ) < q
        · simp [JsNumber.clamp, JsNumber.min, JsNumber.max, JsNumber.lt, h1, h2]
        · simp [JsNumber.clamp, JsNumber.min, JsNumber.max, JsNumber.lt, h1, h2]
      · simp [JsNumber.clamp, JsNumber.min, JsNumber.max, JsNumber.lt, h1]
    have hge : (JsNumber.ge (.finite q) (.finite 0) = true ∧
        JsNumber.ge (.finite 160) (.finite q) = true) ↔ (0 ≤ q ∧ q ≤ 160) := by
      simp [JsNumber.ge, JsNumber.lt]
    rw [hval, hge]
    simp only [hn, false_or, JsNumber.finite.injEq]
    constructor
    · intro h
      split_ifs at h with h1 h2
      · exact ⟨le_of_lt h2, le_of_lt h1⟩
      · rw [h]
        norm_num
      · rw [h]
        norm_num
    · rintro ⟨h3, h4⟩
      split_ifs with h1 h2
      · rfl
      · exact le_antisymm (not_lt.mp h2) h3
      · exact le_antisymm h4 (not_lt.mp h1)

/-- C11 (as stated, refuted): `seekTo (-5)` leaves the elapsed time at `-5` and
`seekTo 200` leaves it at `200`; neither is clamped into `0 .. 160`, and neither
equals `clamp(t, 0, 160)`. -/
theorem seekTo_does_not_clamp :
    (seekTo (fun key => key) sampleProps (-5) Player.initial).currentTime = -5 ∧
    (seekTo (fun key => key) sampleProps 200 Player.initial).currentTime = 200 ∧
    (seekToNumber (fun key => key) sampleProps (.ofInt (-5))
        Player.initial.toNumberPlayer).currentTime ≠
      JsNumber.clamp (.ofInt (-5)) (.ofInt 0) (.ofInt 160) ∧
    (seekToNumber (fun key => key) sampleProps (.ofInt 200)
        Player.initial.toNumberPlayer).currentTime ≠
      JsNumber.clamp (.ofInt 200) (.ofInt 0) (.ofInt 160) := by
  have h0 : JsNumber.ofInt 0 = .finite 0 := by simp [JsNumber.ofInt]
  have h160 : JsNumber.ofInt 160 = .finite 160 := by simp [JsNumber.ofInt]
  refine ⟨?_, ?_, ?_, ?_⟩
  · simp only [seekTo]
    split <;> rfl
  · simp only [seekTo]
    split <;> rfl
  · rw [seekToNumber_currentTime]
    intro h
    rw [h0, h160] at h
    rcases (clamp_eq_self_iff _).mp h with hn | ⟨hge, _⟩
    · cases hn
    · rw [← h0, JsNumber.ge_ofInt] at hge
      revert hge
      decide
  · rw [seekToNumber_currentTime]
    intro h
    rw [h0, h160] at h
    rcases (clamp_eq_self_iff _).mp h with hn | ⟨_, hle⟩
    · cases hn
    · rw [← h160, JsNumber.ge_ofInt] at hle
      revert hle
      decide

/-- C11 (amended): for every number `t`, also `t < 0`, `t > totalDuration`, a
fraction, an infinity or `NaN`, `seekTo t` sets the elapsed time to `t` itself,
without clamping: `0 ≤ elapsed ≤ totalDuration` holds after the seek exactly when
`0 ≤ t ≤ totalDuration`, and the elapsed time equals `clamp(t, 0, totalDuration)`
exactly when `0 ≤ t ≤ totalDuration` or `t` is `NaN`. On an integer argument the
seek is `seekTo` on integer times. -/
theorem seekTo_sets_time_unclamped (inheritedText : Str → Str) (props : Props) (t : JsNumber)
    (s : NumberPlayer) :
    (seekToNumber inheritedText props t s).currentTime = t ∧
    (((seekToNumber inheritedText props t s).currentTime.ge (.ofInt 0) = true ∧
        (JsNumber.ofInt (totalDuration (chapters inheritedText props s.selectedAvatar))).ge
          (seekToNumber inheritedText props t s).currentTime = true) ↔
      (t.ge (.ofInt 0) = true ∧
        (JsNumber.ofInt (totalDuration (chapters inheritedText props s.selectedAvatar))).ge t =
          true)) ∧
    ((seekToNumber inheritedText props t s).currentTime =
        JsNumber.clamp t (.ofInt 0)
          (.ofInt (totalDuration (chapters inheritedText props s.selectedAvatar))) ↔
      (t = .nan ∨
        (t.ge (.ofInt 0) = true ∧
          (JsNumber.ofInt (totalDuration (chapters inheritedText props s.selectedAvatar))).ge t =
            true))) ∧
    (∀ (n : Int) (p : Player),
      seekToNumber inheritedText props (.ofInt n) p.toNumberPlayer =
        (seekTo inheritedText props n p).toNumberPlayer) := by
  have ht := seekToNumber_currentTime inheritedText props t s
  have htot : totalDuration (chapters inheritedText props s.selectedAvatar) = 160 := rfl
  have h0 : JsNumber.ofInt 0 = .finite 0 := by simp [JsNumber.ofInt]
  have h160 : JsNumber.ofInt 160 = .finite 160 := by simp [JsNumber.ofInt]
  refine ⟨ht, ?_, ?_, fun n p => seekToNumber_int inheritedText props n p⟩
  · rw [ht]
  · rw [ht, htot, h0, h160]
    exact clamp_eq_self_iff t

end CodeVision
